import Mathlib

/-!
Shallow embedding of the `fr_benou::Stats` sliding-window percentile container
(src/include/Stats.hpp) and verification of its specification.

The container is `Stats<T, TIMEOUT, GETTIMESTAMP>`: a fixed array of
`TIMEOUT` buckets (`std::vector<StatsPair>`), where a sample `(ts, v)` is
routed to bucket `ts % TIMEOUT`.  We write `W` for `TIMEOUT`.  Timestamps are
`std::uint64_t`, modelled as `Nat` together with the bound `u64size`; the one
place where u64 wraparound matters (`ts_min = max - TIMEOUT` in the iterator
constructor) is modelled with an explicit `% u64size`.  The generic orderable
value type `T` is taken as `Int`.
-/

/-- Size of the u64 timestamp domain. -/
def u64size : Nat := 2 ^ 64

/-- A stored `(timestamp, value)` pair: `StatsPair` in the source. -/
abbrev StatsPair := Nat × Int

/-- The state of a `Stats` object: the bucket array `statsBuckets[TIMEOUT]`.
Only indices `< W` are ever written or read by the operations. -/
abbrev BucketArr := Nat → List StatsPair

/-- The freshly constructed container: every bucket empty. -/
def emptyB : BucketArr := fun _ => []

/-- Replace bucket `i` with `v`, keeping every other bucket. -/
def updBucket (b : BucketArr) (i : Nat) (v : List StatsPair) : BucketArr :=
  fun j => if j = i then v else b j

/-- The effect of `Stats::add` on the single targeted bucket (lines 248-256):
`if (!bucket.empty() && ts != bucket[0].first) bucket.clear();
bucket.push_back(statsPair);`. -/
def bucketAdd (bk : List StatsPair) (sp : StatsPair) : List StatsPair :=
  match bk with
  | [] => [sp]
  | (t0, _) :: _ => if sp.1 = t0 then bk ++ [sp] else [sp]

/-- `Stats::add(StatsPair)`: route to bucket `ts % TIMEOUT`, evict on
timestamp mismatch, append at the tail. -/
def add (W : Nat) (b : BucketArr) (sp : StatsPair) : BucketArr :=
  updBucket b (sp.1 % W) (bucketAdd (b (sp.1 % W)) sp)

/-- Perform a sequence of `add` calls, earliest first. -/
def addAll (W : Nat) (b : BucketArr) (l : List StatsPair) : BucketArr :=
  l.foldl (add W) b

/-- Partial sums of bucket lengths over indices `0, ..., k-1`. -/
def sizeAux (b : BucketArr) : Nat → Nat
  | 0 => 0
  | k + 1 => sizeAux b k + (b k).length

/-- `Stats::size` (lines 219-226): the sum of all `TIMEOUT` bucket lengths,
counting stale samples as well. -/
def size (W : Nat) (b : BucketArr) : Nat := sizeAux b W

/-- `Stats::clear` (lines 233-238): every bucket is emptied. -/
def clearStats (_W : Nat) (_b : BucketArr) : BucketArr := fun _ => []

/-- The loop of the iterator constructor (lines 97-109): scan buckets
`0, ..., k-1` keeping the largest first-element timestamp seen so far
(strict improvement, starting from `max = 0, index_max = 0`), returning
`(max, index_max)`. -/
def maxScan (b : BucketArr) : Nat → Nat × Nat
  | 0 => (0, 0)
  | k + 1 =>
    let mi := maxScan b k
    match b k with
    | [] => mi
    | (t0, _) :: _ => if t0 > mi.1 then (t0, k) else mi

/-- `ts_min = max - TIMEOUT` computed in u64 arithmetic (line 108); when
`max < TIMEOUT` this wraps around below zero. -/
def tsMin (W mx : Nat) : Nat := (mx + u64size - W) % u64size

/-- The guard of the `seek` loop for the current inner position:
`current == stats->statsBuckets[index].end() || current->first < ts_min`. -/
def staleOrEnd (tsmin : Nat) (bk : List StatsPair) (pos : Nat) : Bool :=
  match bk[pos]? with
  | none => true
  | some sp => decide (sp.1 < tsmin)

/-- `statsBucketsIterator::seek` (lines 130-138): while the current position
is past the end of its bucket or at a stale sample, and the bucket is not
`index_max`, jump to the start of the next ring bucket.  The loop hops at
most `W - 1` times, so any fuel `>= W - 1` computes the real result; every
call site passes fuel `W`. -/
def seek (W : Nat) (b : BucketArr) (tsmin imax : Nat) : Nat → Nat × Nat → Nat × Nat
  | 0, st => st
  | fuel + 1, (i, pos) =>
    if staleOrEnd tsmin (b i) pos = true ∧ i ≠ imax then
      seek W b tsmin imax fuel ((i + 1) % W, 0)
    else (i, pos)

/-- The iteration loop `for (it = begin; it != end; ++it) *it`: the end state
is "past the last element of bucket `index_max`"; otherwise dereference,
advance one position and `seek`.  Each step yields one stored sample, so any
fuel larger than the number of yielded samples computes the real sequence;
`statsView` passes `W * size + 1`. -/
def viewFrom (W : Nat) (b : BucketArr) (tsmin imax : Nat) : Nat → Nat × Nat → List StatsPair
  | 0, _ => []
  | fuel + 1, (i, pos) =>
    if i = imax ∧ pos = (b imax).length then []
    else
      match (b i)[pos]? with
      | none => []
      | some sp => sp :: viewFrom W b tsmin imax fuel (seek W b tsmin imax W (i, pos + 1))

/-- The full time-ordered view: the sequence of samples yielded iterating
from `begin()` (lines 145-151: start at `next_(index_max)`, then `seek`) to
`end()`. -/
def statsView (W : Nat) (b : BucketArr) : List StatsPair :=
  let mi := maxScan b W
  let tmin := tsMin W mi.1
  viewFrom W b tmin mi.2 (W * size W b + 1) (seek W b tmin mi.2 W ((mi.2 + 1) % W, 0))

/-- Result of a `get_p` call.  `emptyError` is the thrown
`std::out_of_range("Stats object is empty")`; `oobAccess` marks the undefined
out-of-range vector access `v[index]` with `index >= v.size()`. -/
inductive PRes where
  | ok (v : Int)
  | emptyError
  | oobAccess
deriving DecidableEq

/-- `Stats::get_p` (lines 310-319): take `sz = size()` (stale samples
included), throw when zero; materialize `std::vector<T> v(sz)` (value
initialized, so `sz` zeros) and overwrite its front with the values yielded
by the view; compute `index = (sz * p + 99) / 100`; `nth_element` places at
position `index` the element a full ascending sort would put there, and
`v[index]` is returned - an out-of-range access when `index >= sz`. -/
def get_p (W : Nat) (b : BucketArr) (p : Nat) : PRes :=
  let sz := size W b
  if sz = 0 then PRes.emptyError
  else
    let live := (statsView W b).map Prod.snd
    let v := live ++ List.replicate (sz - live.length) 0
    let index := (sz * p + 99) / 100
    match (List.insertionSort (fun x y => x ≤ y) v)[index]? with
    | some x => PRes.ok x
    | none => PRes.oobAccess

/-- `Stats::get_p70` (lines 330-333). -/
def get_p70 (W : Nat) (b : BucketArr) : PRes := get_p W b 70

/-- Fold a sequence of same-bucket adds into one bucket. -/
def bucketFold (bk : List StatsPair) (l : List StatsPair) : List StatsPair :=
  l.foldl bucketAdd bk

/-- Well-formedness of a bucket array reachable by `add` calls: every sample
in bucket `i` has `ts % W = i`, a u64 timestamp, and all samples of one
bucket share one timestamp. -/
def BucketWF (W : Nat) (b : BucketArr) : Prop :=
  ∀ i : Nat, ∀ sp ∈ b i, sp.1 % W = i ∧ sp.1 < u64size ∧ ∀ sq ∈ b i, sq.1 = sp.1

/-- The bucket the traversal visits at step `j`: ring index
`(index_max + 1 + j) % W`.  The bucket's samples are yielded in full when it
is non-empty and either it is bucket `index_max` (where `seek` never skips)
or its timestamp is not stale. -/
def slotOf (W : Nat) (b : BucketArr) (tsmin imax j : Nat) : List StatsPair :=
  let i := (imax + 1 + j) % W
  match b i with
  | [] => []
  | (t0, _) :: _ => if i = imax ∨ tsmin ≤ t0 then b i else []

/-- Concatenation of the samples of traversal steps `j, ..., j + c - 1`. -/
def slotsFrom (W : Nat) (b : BucketArr) (tsmin imax : Nat) : Nat → Nat → List StatsPair
  | _, 0 => []
  | j, c + 1 => slotOf W b tsmin imax j ++ slotsFrom W b tsmin imax (j + 1) c

/-- Whether `seek` stops at traversal step `j` for a reason other than
reaching `index_max`: the bucket is non-empty and its head is not stale. -/
def stopB (W : Nat) (b : BucketArr) (tsmin imax j : Nat) : Bool :=
  match b ((imax + 1 + j) % W) with
  | [] => false
  | (t0, _) :: _ => decide (tsmin ≤ t0)

/-- The traversal step at which `seek`, started at step `j` with `c` steps
left before `index_max`, comes to rest. -/
def landAux (W : Nat) (b : BucketArr) (tsmin imax : Nat) : Nat → Nat → Nat
  | 0, j => j
  | c + 1, j =>
    if stopB W b tsmin imax j = true then j else landAux W b tsmin imax c (j + 1)

/-- The number of adds in `l` that are not evicted by a later same-bucket
differing-timestamp add in `l`: an add `x` survives exactly when every later
add routed to `x`'s bucket carries `x`'s timestamp. -/
def survivorCount (W : Nat) : List StatsPair → Nat
  | [] => 0
  | x :: xs =>
    (if ∀ y ∈ xs, y.1 % W = x.1 % W → y.1 = x.1 then 1 else 0) +
      survivorCount W xs

/-- How many samples of a pre-existing bucket `bk` (at index `i`) survive the
add sequence `l`: all of them when every add of `l` into bucket `i` carries
the bucket's timestamp, none otherwise. -/
def keepTerm (W : Nat) (l : List StatsPair) (bk : List StatsPair) (i : Nat) : Nat :=
  match bk with
  | [] => 0
  | (t0, _) :: _ => if ∀ y ∈ l, y.1 % W = i → y.1 = t0 then bk.length else 0

/-- Sum of `keepTerm` over buckets `0, ..., k-1`. -/
def keepSum (W : Nat) (l : List StatsPair) (b : BucketArr) : Nat → Nat
  | 0 => 0
  | k + 1 => keepSum W l b k + keepTerm W l (b k) k

/-! ## Basic lemmas about `add` -/

theorem updBucket_self (b : BucketArr) (i : Nat) (v : List StatsPair) :
    updBucket b i v i = v := by
  simp [updBucket]

theorem updBucket_other (b : BucketArr) (i : Nat) (v : List StatsPair)
    (j : Nat) (h : j ≠ i) : updBucket b i v j = b j := by
  simp [updBucket, h]

theorem add_target (W : Nat) (b : BucketArr) (sp : StatsPair) :
    add W b sp (sp.1 % W) = bucketAdd (b (sp.1 % W)) sp := by
  simp [add, updBucket_self]

theorem add_other (W : Nat) (b : BucketArr) (sp : StatsPair) (j : Nat)
    (h : j ≠ sp.1 % W) : add W b sp j = b j := by
  simp [add, updBucket_other _ _ _ _ h]

theorem bucketAdd_ne_nil (bk : List StatsPair) (sp : StatsPair) :
    bucketAdd bk sp ≠ [] := by
  match bk with
  | [] => simp [bucketAdd]
  | (t0, v0) :: tl =>
    by_cases h : sp.1 = t0 <;> simp [bucketAdd, h]

theorem bucketAdd_getLast (bk : List StatsPair) (sp : StatsPair) :
    (bucketAdd bk sp).getLast? = some sp := by
  match bk with
  | [] => simp [bucketAdd]
  | (t0, v0) :: tl =>
    by_cases h : sp.1 = t0
    · show ((if sp.1 = t0 then (t0, v0) :: tl ++ [sp] else [sp]).getLast? = some sp)
      rw [if_pos h, List.getLast?_concat]
    · simp [bucketAdd, h]

theorem bucketAdd_head (bk : List StatsPair) (sp : StatsPair) :
    ∃ v0 tl, bucketAdd bk sp = (sp.1, v0) :: tl := by
  match bk with
  | [] => exact ⟨sp.2, [], rfl⟩
  | (t0, v0) :: tl =>
    by_cases h : sp.1 = t0
    · exact ⟨v0, tl ++ [sp], by simp [bucketAdd, h]⟩
    · exact ⟨sp.2, [], by simp [bucketAdd, h]⟩

/-- C6: `add(t, v)` targets exactly bucket `t % W`; a non-empty bucket whose
stored (head) timestamp differs from `t` is discarded wholesale before the
append, otherwise the pair is appended; the new pair always sits at the
bucket's tail; and adding `(t, va)` then `(t + W, vb)` leaves the bucket
holding only `(t + W, vb)`. -/
theorem add_routes_and_evicts (W : Nat) (hW : 0 < W) (b : BucketArr)
    (t : Nat) (v va vb : Int) :
    (add W b (t, v) (t % W) =
      (match b (t % W) with
       | [] => [(t, v)]
       | (t0, _) :: _ => if t = t0 then b (t % W) ++ [(t, v)] else [(t, v)])) ∧
    (add W b (t, v) (t % W)).getLast? = some (t, v) ∧
    add W (add W b (t, va)) (t + W, vb) ((t + W) % W) = [(t + W, vb)] := by
  refine ⟨add_target W b (t, v), ?_, ?_⟩
  · rw [add_target]; exact bucketAdd_getLast _ _
  · have hmod : (t + W) % W = t % W := Nat.add_mod_right t W
    have h1 : add W (add W b (t, va)) (t + W, vb) ((t + W) % W) =
        bucketAdd (add W b (t, va) (t % W)) (t + W, vb) := by
      rw [hmod]
      have := add_target W (add W b (t, va)) (t + W, vb)
      simpa [hmod] using this
    rw [h1, add_target]
    obtain ⟨v0, tl, h2⟩ := bucketAdd_head (b (t % W)) (t, va)
    rw [h2]
    have hne : ¬ (t + W = t) := by omega
    simp [bucketAdd, hne]

/-- C10: `add(t, v)` changes no bucket other than `t % W`: every other
bucket keeps the same samples in the same order. -/
theorem add_frame (W : Nat) (b : BucketArr) (t : Nat) (v : Int) (j : Nat)
    (h : j ≠ t % W) : add W b (t, v) j = b j :=
  add_other W b (t, v) j h

/-- Witness for C10 at a concrete input. -/
theorem add_frame_witness :
    (3 : Nat) ≠ 1000 % 60 ∧ add 60 emptyB (1000, 5) 3 = emptyB 3 :=
  ⟨by decide, add_frame 60 emptyB 1000 5 3 (by decide)⟩

/-- Witness for C6 at a concrete input. -/
theorem add_routes_and_evicts_witness :
    0 < 60 ∧
    ((add 60 emptyB (1000, 7) (1000 % 60) =
      (match emptyB (1000 % 60) with
       | [] => [(1000, 7)]
       | (t0, _) :: _ =>
         if 1000 = t0 then emptyB (1000 % 60) ++ [(1000, 7)] else [(1000, 7)])) ∧
     (add 60 emptyB (1000, 7) (1000 % 60)).getLast? = some (1000, 7) ∧
     add 60 (add 60 emptyB (1000, 8)) (1000 + 60, 9) ((1000 + 60) % 60) =
       [(1000 + 60, 9)]) :=
  ⟨by decide, add_routes_and_evicts 60 (by decide) emptyB 1000 7 8 9⟩

/-- C9: with `W = 60` and the ten values `1..10` all added at timestamp
`1000`, `size()` is `10`, the view yields the values in order `1..10`, and
`p(50)` returns `6` (rank `(10*50+99)/100 = 5` selects the 6th smallest). -/
theorem scenario_s1_ten_values :
    size 60 (addAll 60 emptyB
      [(1000,1),(1000,2),(1000,3),(1000,4),(1000,5),
       (1000,6),(1000,7),(1000,8),(1000,9),(1000,10)]) = 10 ∧
    (statsView 60 (addAll 60 emptyB
      [(1000,1),(1000,2),(1000,3),(1000,4),(1000,5),
       (1000,6),(1000,7),(1000,8),(1000,9),(1000,10)])).map Prod.snd =
      [1,2,3,4,5,6,7,8,9,10] ∧
    get_p 60 (addAll 60 emptyB
      [(1000,1),(1000,2),(1000,3),(1000,4),(1000,5),
       (1000,6),(1000,7),(1000,8),(1000,9),(1000,10)]) 50 = PRes.ok 6 := by
  refine ⟨by decide, by decide, by decide⟩

/-- C1 fails on the code: there is no clamping of the rank.  On the spec's
own scenario S2 (three live samples, `p70()`), the code computes
`index = (3*70+99)/100 = 3 = n` and reads `v[3]`, one past the end of the
scratch vector, instead of returning `30`; `p(100)` likewise always computes
`index = n` (shown here on a one-sample container where the claim expects the
maximum live value `5`). -/
theorem get_p_missing_clamp :
    get_p 60 (addAll 60 emptyB [(1000,10),(1000,20),(1030,30)]) 70 =
      PRes.oobAccess ∧
    get_p 60 (addAll 60 emptyB [(1000,5)]) 100 = PRes.oobAccess := by
  refine ⟨by decide, by decide⟩

/-- C2 fails on the code: `get_p` takes `n = size()`, which counts stale
samples, and the scratch vector is padded with default zeros in the stale
positions.  With three stale samples of value `5` and one live sample `7`,
`p(50)` returns `0`, which is not an element of the live sample set `{7}`
(and `n = 4`, not the live count `1`). -/
theorem get_p_counts_stale :
    get_p 2 (addAll 2 emptyB [(10,5),(10,5),(10,5),(13,7)]) 50 = PRes.ok 0 ∧
    (statsView 2 (addAll 2 emptyB [(10,5),(10,5),(10,5),(13,7)])).map Prod.snd
      = [7] ∧
    size 2 (addAll 2 emptyB [(10,5),(10,5),(10,5),(13,7)]) = 4 ∧
    (0 : Int) ∉
      (statsView 2 (addAll 2 emptyB [(10,5),(10,5),(10,5),(13,7)])).map
        Prod.snd := by
  refine ⟨by decide, by decide, by decide, by decide⟩

/-- C3 as stated is false at `t = 0`: with `W = 2`, after `add(0, a)` and
`add(1, b)` the iterator's `ts_min = 1 - 2` wraps around to `2^64 - 1` in
u64 arithmetic, so sample `a` is treated as stale and the view yields only
`b`, not both. -/
theorem stale_tail_zero_counterexample :
    statsView 2 (addAll 2 emptyB [(0,10),(1,20)]) = [(1,20)] ∧
    ((0:Nat), (10:Int)) ∉ statsView 2 (addAll 2 emptyB [(0,10),(1,20)]) := by
  refine ⟨by decide, by decide⟩

/-! ## Well-formedness of reachable bucket arrays -/

theorem bucketWF_empty (W : Nat) : BucketWF W emptyB := by
  intro i sp h
  simp [emptyB] at h

theorem bucketWF_add (W : Nat) (b : BucketArr) (sp : StatsPair)
    (hwf : BucketWF W b) (hts : sp.1 < u64size) : BucketWF W (add W b sp) := by
  intro i sq hmem
  by_cases hi : i = sp.1 % W
  · subst hi
    rw [add_target] at hmem
    have hbk : ∀ sr ∈ bucketAdd (b (sp.1 % W)) sp, sr.1 = sp.1 := by
      intro sr hr
      match hb : b (sp.1 % W) with
      | [] =>
        rw [hb] at hr
        simp [bucketAdd] at hr
        rw [hr]
      | (t0, v0) :: tl =>
        rw [hb] at hr
        by_cases h0 : sp.1 = t0
        · simp [bucketAdd, h0] at hr
          rcases hr with hr | hr | hr
          · rw [hr, h0]
          · have := (hwf (sp.1 % W) (t0, v0) (by rw [hb]; exact List.mem_cons_self _ _)).2.2
              sr (by rw [hb]; exact List.mem_cons_of_mem _ hr)
            rw [this, h0]
          · rw [hr]
        · simp [bucketAdd, h0] at hr
          rw [hr]
    have h1 := hbk sq hmem
    refine ⟨by rw [h1], by rw [h1]; exact hts, ?_⟩
    intro sr hr
    rw [add_target] at hr
    rw [hbk sr hr, h1]
  · rw [add_other W b sp i hi] at hmem
    have h1 := hwf i sq hmem
    refine ⟨h1.1, h1.2.1, ?_⟩
    intro sr hr
    rw [add_other W b sp i hi] at hr
    exact h1.2.2 sr hr

theorem bucketWF_addAll (W : Nat) (l : List StatsPair)
    (hl : ∀ p ∈ l, p.1 < u64size) (b : BucketArr) (hwf : BucketWF W b) :
    BucketWF W (addAll W b l) := by
  induction l generalizing b with
  | nil => exact hwf
  | cons x xs ih =>
    have : addAll W b (x :: xs) = addAll W (add W b x) xs := rfl
    rw [this]
    exact ih (fun p hp => hl p (List.mem_cons_of_mem _ hp))
      (add W b x) (bucketWF_add W b x hwf (hl x (List.mem_cons_self _ _)))

/-! ## Properties of `maxScan` and `size` -/

theorem maxScan_succ (b : BucketArr) (k : Nat) :
    maxScan b (k + 1) =
      (match b k with
       | [] => maxScan b k
       | (t0, _) :: _ => if t0 > (maxScan b k).1 then (t0, k) else maxScan b k) :=
  rfl

theorem maxScan_fst_le_succ (b : BucketArr) (k : Nat) :
    (maxScan b k).1 ≤ (maxScan b (k + 1)).1 := by
  match hbk : b k with
  | [] =>
    have hstep : maxScan b (k + 1) = maxScan b k := by rw [maxScan_succ, hbk]
    rw [hstep]
  | (t0, v0) :: tl =>
    have hstep : maxScan b (k + 1) =
        (if t0 > (maxScan b k).1 then (t0, k) else maxScan b k) := by
      rw [maxScan_succ, hbk]
    rw [hstep]
    by_cases hgt : t0 > (maxScan b k).1
    · rw [if_pos hgt]; omega
    · rw [if_neg hgt]

theorem maxScan_head_le (b : BucketArr) (k : Nat) :
    ∀ i < k, ∀ t0 v0 tl, b i = (t0, v0) :: tl → t0 ≤ (maxScan b k).1 := by
  induction k with
  | zero => intro i hi; omega
  | succ k ih =>
    intro i hi t0 v0 tl hb
    rcases Nat.lt_succ_iff_lt_or_eq.mp hi with hik | hik
    · have h1 := ih i hik t0 v0 tl hb
      have h2 := maxScan_fst_le_succ b k
      omega
    · subst hik
      have hstep : maxScan b (i + 1) =
          (if t0 > (maxScan b i).1 then (t0, i) else maxScan b i) := by
        rw [maxScan_succ, hb]
      rw [hstep]
      by_cases hgt : t0 > (maxScan b i).1
      · rw [if_pos hgt]
      · rw [if_neg hgt]; omega

theorem maxScan_attained (b : BucketArr) (k : Nat) :
    maxScan b k = (0, 0) ∨
    ((maxScan b k).2 < k ∧
      ∃ v0 tl, b (maxScan b k).2 = ((maxScan b k).1, v0) :: tl) := by
  induction k with
  | zero => exact Or.inl rfl
  | succ k ih =>
    match hbk : b k with
    | [] =>
      have hstep : maxScan b (k + 1) = maxScan b k := by rw [maxScan_succ, hbk]
      rw [hstep]
      rcases ih with h | h
      · exact Or.inl h
      · exact Or.inr ⟨Nat.lt_succ_of_lt h.1, h.2⟩
    | (t0, v0) :: tl =>
      have hstep : maxScan b (k + 1) =
          (if t0 > (maxScan b k).1 then (t0, k) else maxScan b k) := by
        rw [maxScan_succ, hbk]
      rw [hstep]
      by_cases hgt : t0 > (maxScan b k).1
      · rw [if_pos hgt]
        exact Or.inr ⟨Nat.lt_succ_self k, v0, tl, hbk⟩
      · rw [if_neg hgt]
        rcases ih with h | h
        · exact Or.inl h
        · exact Or.inr ⟨Nat.lt_succ_of_lt h.1, h.2⟩

theorem maxScan_imax_lt (b : BucketArr) (W : Nat) (hW : 0 < W) :
    (maxScan b W).2 < W := by
  rcases maxScan_attained b W with h | h
  · rw [h]; exact hW
  · exact h.1

theorem bucket_len_le_sizeAux (b : BucketArr) (k : Nat) :
    ∀ i < k, (b i).length ≤ sizeAux b k := by
  induction k with
  | zero => intro i hi; omega
  | succ k ih =>
    intro i hi
    show (b i).length ≤ sizeAux b k + (b k).length
    rcases Nat.lt_succ_iff_lt_or_eq.mp hi with hik | hik
    · have := ih i hik; omega
    · subst hik; omega

theorem sizeAux_zero_iff (b : BucketArr) (k : Nat) :
    sizeAux b k = 0 ↔ ∀ i < k, b i = [] := by
  induction k with
  | zero => simp [sizeAux]
  | succ k ih =>
    show sizeAux b k + (b k).length = 0 ↔ _
    constructor
    · intro h i hi
      have h1 : sizeAux b k = 0 := by omega
      have h2 : (b k).length = 0 := by omega
      rcases Nat.lt_succ_iff_lt_or_eq.mp hi with hik | hik
      · exact ih.mp h1 i hik
      · subst hik; exact List.length_eq_zero.mp h2
    · intro h
      have h1 : sizeAux b k = 0 := ih.mpr (fun i hi => h i (Nat.lt_succ_of_lt hi))
      have h2 : b k = [] := h k (Nat.lt_succ_self k)
      rw [h1, h2]; rfl

theorem size_ne_zero_nonempty (W : Nat) (b : BucketArr) (h : size W b ≠ 0) :
    ∃ i, i < W ∧ b i ≠ [] := by
  by_contra hc
  push_neg at hc
  exact h ((sizeAux_zero_iff b W).mpr (fun i hi => hc i hi))

/-- For a non-empty well-formed container the scan finds a non-empty bucket
`index_max` whose head timestamp is the maximum `mx`; every stored sample's
timestamp is at most `mx`, and `mx % W = index_max`. -/
theorem maxScan_spec (W : Nat) (hW : 0 < W) (b : BucketArr) (hwf : BucketWF W b)
    (hne : size W b ≠ 0) :
    (maxScan b W).2 < W ∧
    (∃ v0 tl, b (maxScan b W).2 = ((maxScan b W).1, v0) :: tl) ∧
    (∀ i < W, ∀ sp ∈ b i, sp.1 ≤ (maxScan b W).1) ∧
    (maxScan b W).1 % W = (maxScan b W).2 := by
  have helem : ∀ i < W, ∀ sp ∈ b i, sp.1 ≤ (maxScan b W).1 := by
    intro i hi sp hsp
    match hb : b i with
    | [] => rw [hb] at hsp; simp at hsp
    | (t0, v0) :: tl =>
      have hhead := maxScan_head_le b W i hi t0 v0 tl hb
      have := (hwf i (t0, v0) (by rw [hb]; exact List.mem_cons_self _ _)).2.2 sp hsp
      omega
  have hmain : (∃ v0 tl, b (maxScan b W).2 = ((maxScan b W).1, v0) :: tl) := by
    rcases maxScan_attained b W with h | h
    · obtain ⟨i, hi, hbi⟩ := size_ne_zero_nonempty W b hne
      match hb : b i with
      | [] => exact absurd hb hbi
      | (t0, v0) :: tl =>
        have h1 := maxScan_head_le b W i hi t0 v0 tl hb
        rw [h] at h1
        have ht0 : t0 = 0 := by omega
        have h2 := (hwf i (t0, v0) (by rw [hb]; exact List.mem_cons_self _ _)).1
        have hi0 : i = 0 := by
          have : (t0, v0).1 % W = i := h2
          rw [ht0] at this
          rw [← this, Nat.zero_mod]
        subst hi0
        refine ⟨v0, tl, ?_⟩
        rw [h]
        show b 0 = (0, v0) :: tl
        rw [hb, ht0]
    · exact h.2
  refine ⟨maxScan_imax_lt b W hW, hmain, helem, ?_⟩
  obtain ⟨v0, tl, hb⟩ := hmain
  exact (hwf (maxScan b W).2 ((maxScan b W).1, v0)
    (by rw [hb]; exact List.mem_cons_self _ _)).1

/-! ## Ring-index arithmetic -/

theorem mod_add_one_mod (a W : Nat) : (a % W + 1) % W = (a + 1) % W := by
  conv_rhs => rw [Nat.add_mod]
  conv_lhs => rw [Nat.add_mod]
  rw [Nat.mod_mod_of_dvd _ (Nat.dvd_refl W)]

theorem mod_cancel (x d W : Nat) (hW : 0 < W) (hd : d < W)
    (h : (x + d) % W = x % W) : d = 0 := by
  have h1 := Nat.add_mod x d W
  rw [h] at h1
  have hx : x % W < W := Nat.mod_lt x hW
  have hd2 : d % W = d := Nat.mod_eq_of_lt hd
  rw [hd2] at h1
  rcases Nat.lt_or_ge (x % W + d) W with hc | hc
  · rw [Nat.mod_eq_of_lt hc] at h1
    omega
  · have h3 : (x % W + d) % W = (x % W + d - W) % W := Nat.mod_eq_sub_mod hc
    have h4 : x % W + d - W < W := by omega
    rw [h3, Nat.mod_eq_of_lt h4] at h1
    omega

theorem window_cong_eq (W mx a c : Nat) (hW : 0 < W) (hmod : a % W = c % W)
    (ha1 : mx < a) (ha2 : a ≤ mx + W) (hc1 : mx < c) (hc2 : c ≤ mx + W) :
    a = c := by
  rcases Nat.le_total a c with hle | hle
  · obtain ⟨d, hd⟩ := Nat.le.dest hle
    have hdW : d < W := by omega
    have h1 : (a + d) % W = a % W := by rw [hd, hmod]
    have := mod_cancel a d W hW hdW h1
    omega
  · obtain ⟨d, hd⟩ := Nat.le.dest hle
    have hdW : d < W := by omega
    have h1 : (c + d) % W = c % W := by rw [hd, ← hmod]
    have := mod_cancel c d W hW hdW h1
    omega

theorem idx_last (W im : Nat) (hW : 0 < W) (him : im < W) :
    (im + 1 + (W - 1)) % W = im := by
  have h1 : im + 1 + (W - 1) = im + W := by omega
  rw [h1, Nat.add_mod_right, Nat.mod_eq_of_lt him]

theorem idx_ne_imax (W im j : Nat) (him : im < W) (hj : j + 1 < W) :
    (im + 1 + j) % W ≠ im := by
  intro h
  have h2 : (im + (1 + j)) % W = im % W := by
    rw [show im + (1 + j) = im + 1 + j by omega, h, Nat.mod_eq_of_lt him]
  have := mod_cancel im (1 + j) W (by omega) (by omega) h2
  omega

theorem idx_lt (W im j : Nat) (hW : 0 < W) : (im + 1 + j) % W < W :=
  Nat.mod_lt _ hW

/-! ## Basic `seek` lemmas -/

theorem seek_stop (W : Nat) (b : BucketArr) (tsmin imax : Nat) (f : Nat)
    (i pos : Nat) (h : ¬ (staleOrEnd tsmin (b i) pos = true ∧ i ≠ imax)) :
    seek W b tsmin imax f (i, pos) = (i, pos) := by
  match f with
  | 0 => rfl
  | f + 1 => simp only [seek, if_neg h]

theorem seek_step (W : Nat) (b : BucketArr) (tsmin imax : Nat) (f : Nat)
    (i pos : Nat) (h : staleOrEnd tsmin (b i) pos = true ∧ i ≠ imax) :
    seek W b tsmin imax (f + 1) (i, pos) =
      seek W b tsmin imax f ((i + 1) % W, 0) := by
  simp only [seek, if_pos h]

theorem seek_at_imax (W : Nat) (b : BucketArr) (tsmin imax : Nat) (f : Nat)
    (pos : Nat) : seek W b tsmin imax f (imax, pos) = (imax, pos) :=
  seek_stop W b tsmin imax f imax pos (by simp)

/-! ## Landing of `seek` and the slot characterization of the traversal -/

theorem staleOrEnd_zero (W : Nat) (b : BucketArr) (tsmin imax j : Nat) :
    staleOrEnd tsmin (b ((imax + 1 + j) % W)) 0 =
      ! stopB W b tsmin imax j := by
  match hb : b ((imax + 1 + j) % W) with
  | [] =>
    have h2 : stopB W b tsmin imax j = false := by unfold stopB; rw [hb]
    rw [h2]
    simp [staleOrEnd]
  | (t0, v0) :: tl =>
    have h2 : stopB W b tsmin imax j = decide (tsmin ≤ t0) := by unfold stopB; rw [hb]
    have h1 : staleOrEnd tsmin ((t0, v0) :: tl) 0 = decide (t0 < tsmin) := by
      simp [staleOrEnd]
    rw [h2, h1]
    by_cases h : t0 < tsmin
    · rw [decide_eq_true h, decide_eq_false (by omega)]
      rfl
    · rw [decide_eq_false h, decide_eq_true (by omega)]
      rfl

theorem seek_land (W : Nat) (b : BucketArr) (tsmin imax : Nat)
    (him : imax < W) :
    ∀ c j f, j + c + 1 = W → c ≤ f →
      seek W b tsmin imax f ((imax + 1 + j) % W, 0) =
        ((imax + 1 + landAux W b tsmin imax c j) % W, 0) := by
  intro c
  induction c with
  | zero =>
    intro j f hjc hf
    have hj : (imax + 1 + j) % W = imax := by
      have hje : j = W - 1 := by omega
      rw [hje]
      exact idx_last W imax (by omega) him
    simp only [landAux]
    rw [hj]
    exact seek_at_imax W b tsmin imax f 0
  | succ c ih =>
    intro j f hjc hf
    by_cases hstop : stopB W b tsmin imax j = true
    · have hland : landAux W b tsmin imax (c + 1) j = j := by
        simp only [landAux, if_pos hstop]
      rw [hland]
      apply seek_stop
      intro hcon
      have h1 := hcon.1
      rw [staleOrEnd_zero, hstop] at h1
      simp at h1
    · have hland : landAux W b tsmin imax (c + 1) j =
          landAux W b tsmin imax c (j + 1) := by
        simp only [landAux, if_neg hstop]
      rw [hland]
      obtain ⟨g, rfl⟩ : ∃ g, f = g + 1 := ⟨f - 1, by omega⟩
      rw [seek_step W b tsmin imax g _ 0
        ⟨by rw [staleOrEnd_zero]; simp [hstop], idx_ne_imax W imax j him (by omega)⟩]
      have hmod : ((imax + 1 + j) % W + 1) % W = (imax + 1 + (j + 1)) % W := by
        rw [mod_add_one_mod, show imax + 1 + j + 1 = imax + 1 + (j + 1) by omega]
      rw [hmod]
      exact ih (j + 1) g (by omega) (by omega)

theorem viewFrom_imax_run (W : Nat) (b : BucketArr) (tsmin imax : Nat) :
    ∀ d f p, p + d = (b imax).length → d < f →
      viewFrom W b tsmin imax f (imax, p) = (b imax).drop p := by
  intro d
  induction d with
  | zero =>
    intro f p hp hf
    obtain ⟨g, rfl⟩ : ∃ g, f = g + 1 := ⟨f - 1, by omega⟩
    have hpe : p = (b imax).length := by omega
    show (if imax = imax ∧ p = (b imax).length then []
      else match (b imax)[p]? with
        | none => []
        | some sp =>
          sp :: viewFrom W b tsmin imax g (seek W b tsmin imax W (imax, p + 1))) =
      (b imax).drop p
    rw [if_pos ⟨rfl, hpe⟩, hpe, List.drop_length]
  | succ d ihd =>
    intro f p hp hf
    obtain ⟨g, rfl⟩ : ∃ g, f = g + 1 := ⟨f - 1, by omega⟩
    have hplt : p < (b imax).length := by omega
    show (if imax = imax ∧ p = (b imax).length then []
      else match (b imax)[p]? with
        | none => []
        | some sp =>
          sp :: viewFrom W b tsmin imax g (seek W b tsmin imax W (imax, p + 1))) =
      (b imax).drop p
    rw [if_neg (by intro hcon; omega)]
    rw [List.getElem?_eq_getElem hplt]
    show (b imax)[p] :: viewFrom W b tsmin imax g
        (seek W b tsmin imax W (imax, p + 1)) = (b imax).drop p
    rw [seek_at_imax, ihd g (p + 1) (by omega) (by omega),
      List.drop_eq_getElem_cons hplt]

theorem seek_step_any (W : Nat) (b : BucketArr) (tsmin imax : Nat) (f : Nat)
    (hf : 0 < f) (i pos : Nat)
    (h : staleOrEnd tsmin (b i) pos = true ∧ i ≠ imax) :
    seek W b tsmin imax f (i, pos) =
      seek W b tsmin imax (f - 1) ((i + 1) % W, 0) := by
  obtain ⟨g, rfl⟩ : ∃ g, f = g + 1 := ⟨f - 1, by omega⟩
  simp only [Nat.add_sub_cancel]
  exact seek_step W b tsmin imax g i pos h

theorem stopB_true_elim (W : Nat) (b : BucketArr) (tsmin imax j : Nat)
    (h : stopB W b tsmin imax j = true) :
    ∃ t0 v0 tl, b ((imax + 1 + j) % W) = (t0, v0) :: tl ∧ tsmin ≤ t0 := by
  unfold stopB at h
  match hb : b ((imax + 1 + j) % W) with
  | [] =>
    rw [hb] at h
    exact absurd h (by simp)
  | (t0, v0) :: tl =>
    rw [hb] at h
    have h2 : decide (tsmin ≤ t0) = true := h
    exact ⟨t0, v0, tl, rfl, of_decide_eq_true h2⟩

theorem stopB_false_elim (W : Nat) (b : BucketArr) (tsmin imax j : Nat)
    (h : stopB W b tsmin imax j = false) :
    b ((imax + 1 + j) % W) = [] ∨
      ∃ t0 v0 tl, b ((imax + 1 + j) % W) = (t0, v0) :: tl ∧ t0 < tsmin := by
  unfold stopB at h
  match hb : b ((imax + 1 + j) % W) with
  | [] => exact Or.inl rfl
  | (t0, v0) :: tl =>
    rw [hb] at h
    have h2 : decide (tsmin ≤ t0) = false := h
    have h3 := of_decide_eq_false h2
    exact Or.inr ⟨t0, v0, tl, rfl, by omega⟩

theorem slotOf_last (W : Nat) (b : BucketArr) (tsmin imax : Nat) (hW : 0 < W)
    (him : imax < W) : slotOf W b tsmin imax (W - 1) = b imax := by
  simp only [slotOf]
  rw [idx_last W imax hW him]
  match hb : b imax with
  | [] => rfl
  | (t0, v0) :: tl =>
    show (if imax = imax ∨ tsmin ≤ t0 then (t0, v0) :: tl else []) = (t0, v0) :: tl
    rw [if_pos (Or.inl rfl)]

theorem slotOf_stop_true (W : Nat) (b : BucketArr) (tsmin imax j : Nat)
    (h : stopB W b tsmin imax j = true) :
    slotOf W b tsmin imax j = b ((imax + 1 + j) % W) := by
  obtain ⟨t0, v0, tl, hb, ht0⟩ := stopB_true_elim W b tsmin imax j h
  simp only [slotOf]
  rw [hb]
  show (if (imax + 1 + j) % W = imax ∨ tsmin ≤ t0 then (t0, v0) :: tl else []) =
    (t0, v0) :: tl
  rw [if_pos (Or.inr ht0)]

theorem slotOf_stop_false (W : Nat) (b : BucketArr) (tsmin imax j : Nat)
    (him : imax < W) (hj : j + 1 < W) (h : stopB W b tsmin imax j = false) :
    slotOf W b tsmin imax j = [] := by
  rcases stopB_false_elim W b tsmin imax j h with hb | ⟨t0, v0, tl, hb, ht0⟩
  · simp only [slotOf]
    rw [hb]
  · simp only [slotOf]
    rw [hb]
    show (if (imax + 1 + j) % W = imax ∨ tsmin ≤ t0 then (t0, v0) :: tl else []) = []
    rw [if_neg]
    intro hcon
    rcases hcon with hcon | hcon
    · exact idx_ne_imax W imax j him hj hcon
    · omega

theorem viewFrom_land (W : Nat) (b : BucketArr) (tsmin imax : Nat)
    (hW : 0 < W) (him : imax < W)
    (hsame : ∀ i : Nat, ∀ sp ∈ b i, ∀ sq ∈ b i, sq.1 = sp.1) :
    ∀ c j f, j + c + 1 = W →
      (slotsFrom W b tsmin imax j (c + 1)).length < f →
      viewFrom W b tsmin imax f
        ((imax + 1 + landAux W b tsmin imax c j) % W, 0) =
      slotsFrom W b tsmin imax j (c + 1) := by
  intro c
  induction c with
  | zero =>
    intro j f hjc hf
    have hje : j = W - 1 := by omega
    subst hje
    have hslot : slotsFrom W b tsmin imax (W - 1) 1 = b imax := by
      show slotOf W b tsmin imax (W - 1) ++ [] = b imax
      rw [List.append_nil]
      exact slotOf_last W b tsmin imax hW him
    rw [hslot] at hf
    simp only [landAux]
    rw [idx_last W imax hW him, hslot]
    exact viewFrom_imax_run W b tsmin imax (b imax).length f 0 (by omega) (by omega)
  | succ c ih =>
    intro j f hjc hf
    have hj1 : j + 1 < W := by omega
    by_cases hstop : stopB W b tsmin imax j = true
    · obtain ⟨t0, v0, tl, hb, ht0⟩ := stopB_true_elim W b tsmin imax j hstop
      have hslot : slotOf W b tsmin imax j = b ((imax + 1 + j) % W) :=
        slotOf_stop_true W b tsmin imax j hstop
      have hland : landAux W b tsmin imax (c + 1) j = j := by
        simp only [landAux, if_pos hstop]
      rw [hland]
      have hlen : (slotsFrom W b tsmin imax j (c + 1 + 1)).length =
          (b ((imax + 1 + j) % W)).length +
            (slotsFrom W b tsmin imax (j + 1) (c + 1)).length := by
        show (slotOf W b tsmin imax j ++
          slotsFrom W b tsmin imax (j + 1) (c + 1)).length = _
        rw [hslot, List.length_append]
      have run : ∀ d g p, p + d = (b ((imax + 1 + j) % W)).length →
          d + (slotsFrom W b tsmin imax (j + 1) (c + 1)).length < g →
          viewFrom W b tsmin imax g
            (seek W b tsmin imax W ((imax + 1 + j) % W, p)) =
          (b ((imax + 1 + j) % W)).drop p ++
            slotsFrom W b tsmin imax (j + 1) (c + 1) := by
        intro d
        induction d with
        | zero =>
          intro g p hp hg
          have hpe : p = (b ((imax + 1 + j) % W)).length := by omega
          have hstale : staleOrEnd tsmin (b ((imax + 1 + j) % W)) p = true := by
            unfold staleOrEnd
            rw [List.getElem?_eq_none (by omega)]
          have hseek1 : seek W b tsmin imax W ((imax + 1 + j) % W, p) =
              seek W b tsmin imax (W - 1) (((imax + 1 + j) % W + 1) % W, 0) :=
            seek_step_any W b tsmin imax W hW _ p
              ⟨hstale, idx_ne_imax W imax j him hj1⟩
          have hmod : ((imax + 1 + j) % W + 1) % W = (imax + 1 + (j + 1)) % W := by
            rw [mod_add_one_mod, show imax + 1 + j + 1 = imax + 1 + (j + 1) by omega]
          rw [hseek1, hmod,
            seek_land W b tsmin imax him c (j + 1) (W - 1) (by omega) (by omega)]
          rw [ih (j + 1) g (by omega) (by omega)]
          rw [hpe, List.drop_length, List.nil_append]
        | succ d ihd =>
          intro g p hp hg
          have hplt : p < (b ((imax + 1 + j) % W)).length := by omega
          have hsp : (b ((imax + 1 + j) % W))[p]? =
              some (b ((imax + 1 + j) % W))[p] := List.getElem?_eq_getElem hplt
          have hspts : ((b ((imax + 1 + j) % W))[p]).1 = t0 := by
            have hm := hsame ((imax + 1 + j) % W) (t0, v0)
              (by rw [hb]; exact List.mem_cons_self _ _)
              ((b ((imax + 1 + j) % W))[p]) (List.getElem_mem hplt)
            exact hm
          have hstale : staleOrEnd tsmin (b ((imax + 1 + j) % W)) p = false := by
            unfold staleOrEnd
            rw [hsp]
            show decide (((b ((imax + 1 + j) % W))[p]).1 < tsmin) = false
            rw [hspts]
            exact decide_eq_false (by omega)
          have hseek : seek W b tsmin imax W ((imax + 1 + j) % W, p) =
              ((imax + 1 + j) % W, p) := by
            apply seek_stop
            intro hcon
            rw [hstale] at hcon
            exact absurd hcon.1 (by simp)
          rw [hseek]
          obtain ⟨g', rfl⟩ : ∃ g', g = g' + 1 := ⟨g - 1, by omega⟩
          show (if (imax + 1 + j) % W = imax ∧ p = (b imax).length then []
            else
              match (b ((imax + 1 + j) % W))[p]? with
              | none => []
              | some sp => sp :: viewFrom W b tsmin imax g'
                  (seek W b tsmin imax W ((imax + 1 + j) % W, p + 1))) =
            (b ((imax + 1 + j) % W)).drop p ++
              slotsFrom W b tsmin imax (j + 1) (c + 1)
          rw [if_neg (fun hcon => idx_ne_imax W imax j him hj1 hcon.1), hsp]
          show (b ((imax + 1 + j) % W))[p] :: viewFrom W b tsmin imax g'
              (seek W b tsmin imax W ((imax + 1 + j) % W, p + 1)) =
            (b ((imax + 1 + j) % W)).drop p ++
              slotsFrom W b tsmin imax (j + 1) (c + 1)
          rw [ihd g' (p + 1) (by omega) (by omega),
            List.drop_eq_getElem_cons hplt, List.cons_append]
      have hseek0 : seek W b tsmin imax W ((imax + 1 + j) % W, 0) =
          ((imax + 1 + j) % W, 0) := by
        apply seek_stop
        intro hcon
        have h1 := hcon.1
        rw [staleOrEnd_zero, hstop] at h1
        exact absurd h1 (by simp)
      have hrun := run (b ((imax + 1 + j) % W)).length f 0 (by omega) (by omega)
      rw [hseek0] at hrun
      rw [hrun, List.drop_zero]
      show _ = slotOf W b tsmin imax j ++ slotsFrom W b tsmin imax (j + 1) (c + 1)
      rw [hslot]
    · have hstopf : stopB W b tsmin imax j = false := by
        revert hstop
        match stopB W b tsmin imax j with
        | true => intro h; exact absurd rfl h
        | false => intro h; rfl
      have hland : landAux W b tsmin imax (c + 1) j =
          landAux W b tsmin imax c (j + 1) := by
        simp only [landAux, if_neg hstop]
      have hslot : slotOf W b tsmin imax j = [] :=
        slotOf_stop_false W b tsmin imax j him hj1 hstopf
      have hsl : slotsFrom W b tsmin imax j (c + 1 + 1) =
          slotsFrom W b tsmin imax (j + 1) (c + 1) := by
        show slotOf W b tsmin imax j ++ slotsFrom W b tsmin imax (j + 1) (c + 1) = _
        rw [hslot, List.nil_append]
      rw [hland, hsl]
      rw [hsl] at hf
      exact ih (j + 1) f (by omega) hf

theorem slotOf_length_le (W : Nat) (b : BucketArr) (tsmin imax j : Nat)
    (hW : 0 < W) : (slotOf W b tsmin imax j).length ≤ size W b := by
  simp only [slotOf]
  match hb : b ((imax + 1 + j) % W) with
  | [] => exact Nat.zero_le _
  | (t0, v0) :: tl =>
    show (if (imax + 1 + j) % W = imax ∨ tsmin ≤ t0 then (t0, v0) :: tl
      else []).length ≤ size W b
    have hle : ((t0, v0) :: tl).length ≤ size W b := by
      rw [← hb]
      exact bucket_len_le_sizeAux b W _ (idx_lt W imax j hW)
    by_cases hc : (imax + 1 + j) % W = imax ∨ tsmin ≤ t0
    · rw [if_pos hc]; exact hle
    · rw [if_neg hc]; exact Nat.zero_le _

theorem slotsFrom_length_le (W : Nat) (b : BucketArr) (tsmin imax : Nat)
    (hW : 0 < W) : ∀ c j,
    (slotsFrom W b tsmin imax j c).length ≤ c * size W b := by
  intro c
  induction c with
  | zero => intro j; exact Nat.zero_le _
  | succ c ih =>
    intro j
    show (slotOf W b tsmin imax j ++ slotsFrom W b tsmin imax (j + 1) c).length ≤ _
    rw [List.length_append]
    have h1 := slotOf_length_le W b tsmin imax j hW
    have h2 := ih (j + 1)
    have h3 : (c + 1) * size W b = c * size W b + size W b := by ring
    omega

/-- The central characterization: for a state whose buckets each hold a
single timestamp (true of every reachable state), the view is exactly the
concatenation of the kept buckets in ring order starting after `index_max`. -/
theorem statsView_eq_slots (W : Nat) (hW : 0 < W) (b : BucketArr)
    (hsame : ∀ i : Nat, ∀ sp ∈ b i, ∀ sq ∈ b i, sq.1 = sp.1) :
    statsView W b =
      slotsFrom W b (tsMin W (maxScan b W).1) (maxScan b W).2 0 W := by
  have him := maxScan_imax_lt b W hW
  show viewFrom W b (tsMin W (maxScan b W).1) (maxScan b W).2 (W * size W b + 1)
      (seek W b (tsMin W (maxScan b W).1) (maxScan b W).2 W
        (((maxScan b W).2 + 1) % W, 0)) =
    slotsFrom W b (tsMin W (maxScan b W).1) (maxScan b W).2 0 W
  have hseek := seek_land W b (tsMin W (maxScan b W).1) (maxScan b W).2 him
    (W - 1) 0 W (by omega) (by omega)
  rw [Nat.add_zero] at hseek
  rw [hseek]
  have hlen : (slotsFrom W b (tsMin W (maxScan b W).1) (maxScan b W).2
      0 (W - 1 + 1)).length < W * size W b + 1 := by
    rw [show W - 1 + 1 = W by omega]
    have h1 := slotsFrom_length_le W b (tsMin W (maxScan b W).1)
      (maxScan b W).2 hW W 0
    omega
  have hview := viewFrom_land W b (tsMin W (maxScan b W).1) (maxScan b W).2
    hW him hsame (W - 1) 0 (W * size W b + 1) (by omega) hlen
  rw [hview, show W - 1 + 1 = W by omega]

/-! ## Slot membership and arithmetic facts -/

theorem tsMin_eq_sub (W mx : Nat) (hle : W ≤ mx) (hmx : mx < u64size) :
    tsMin W mx = mx - W := by
  unfold tsMin
  rw [show mx + u64size - W = (mx - W) + u64size by omega, Nat.add_mod_right,
    Nat.mod_eq_of_lt (by omega)]

theorem tsMin_gt_of_wrap (W mx : Nat) (_hW : 0 < W) (hlt : mx < W)
    (hW64 : W < u64size) : mx < tsMin W mx := by
  unfold tsMin
  rw [Nat.mod_eq_of_lt (by unfold u64size at *; omega)]
  omega

theorem mod_add_front (a a' k W : Nat) (h : a % W = a' % W) :
    (a + k) % W = (a' + k) % W := by
  rw [Nat.add_mod, h, ← Nat.add_mod]

theorem mem_slotOf (W : Nat) (b : BucketArr) (tsmin imax j : Nat)
    (sp : StatsPair) (h : sp ∈ slotOf W b tsmin imax j) :
    sp ∈ b ((imax + 1 + j) % W) := by
  revert h
  simp only [slotOf]
  match hb : b ((imax + 1 + j) % W) with
  | [] => intro h; exact absurd h (List.not_mem_nil sp)
  | (t0, v0) :: tl =>
    show sp ∈ (if (imax + 1 + j) % W = imax ∨ tsmin ≤ t0 then (t0, v0) :: tl
      else []) → _
    by_cases hc : (imax + 1 + j) % W = imax ∨ tsmin ≤ t0
    · rw [if_pos hc]; exact fun h => h
    · rw [if_neg hc]; intro h; exact absurd h (List.not_mem_nil sp)

theorem mem_slotsFrom (W : Nat) (b : BucketArr) (tsmin imax : Nat) :
    ∀ c j sp, sp ∈ slotsFrom W b tsmin imax j c →
      ∃ k, j ≤ k ∧ k < j + c ∧ sp ∈ slotOf W b tsmin imax k := by
  intro c
  induction c with
  | zero => intro j sp h; exact absurd h (List.not_mem_nil sp)
  | succ c ih =>
    intro j sp h
    have h2 : sp ∈ slotOf W b tsmin imax j ++ slotsFrom W b tsmin imax (j + 1) c :=
      h
    rcases List.mem_append.mp h2 with h3 | h3
    · exact ⟨j, Nat.le_refl j, by omega, h3⟩
    · obtain ⟨k, hk1, hk2, hk3⟩ := ih (j + 1) sp h3
      exact ⟨k, by omega, by omega, hk3⟩

theorem mem_slotsFrom_of (W : Nat) (b : BucketArr) (tsmin imax : Nat) :
    ∀ c j k sp, j ≤ k → k < j + c → sp ∈ slotOf W b tsmin imax k →
      sp ∈ slotsFrom W b tsmin imax j c := by
  intro c
  induction c with
  | zero => intro j k sp h1 h2; omega
  | succ c ih =>
    intro j k sp h1 h2 h3
    show sp ∈ slotOf W b tsmin imax j ++ slotsFrom W b tsmin imax (j + 1) c
    rcases Nat.eq_or_lt_of_le h1 with he | hlt
    · subst he
      exact List.mem_append.mpr (Or.inl h3)
    · exact List.mem_append.mpr (Or.inr (ih (j + 1) k sp hlt (by omega) h3))

theorem slotsFrom_split (W : Nat) (b : BucketArr) (tsmin imax : Nat) :
    ∀ c1 c2 j, slotsFrom W b tsmin imax j (c1 + c2) =
      slotsFrom W b tsmin imax j c1 ++ slotsFrom W b tsmin imax (j + c1) c2 := by
  intro c1
  induction c1 with
  | zero =>
    intro c2 j
    rw [Nat.zero_add, Nat.add_zero]
    rfl
  | succ c1 ih =>
    intro c2 j
    rw [show c1 + 1 + c2 = (c1 + c2) + 1 by omega]
    show slotOf W b tsmin imax j ++ slotsFrom W b tsmin imax (j + 1) (c1 + c2) =
      slotsFrom W b tsmin imax j (c1 + 1) ++
        slotsFrom W b tsmin imax (j + (c1 + 1)) c2
    rw [ih c2 (j + 1)]
    show slotOf W b tsmin imax j ++
        (slotsFrom W b tsmin imax (j + 1) c1 ++
          slotsFrom W b tsmin imax (j + 1 + c1) c2) =
      (slotOf W b tsmin imax j ++ slotsFrom W b tsmin imax (j + 1) c1) ++
        slotsFrom W b tsmin imax (j + (c1 + 1)) c2
    rw [List.append_assoc, show j + 1 + c1 = j + (c1 + 1) by omega]

theorem slotsFrom_all_nil (W : Nat) (b : BucketArr) (tsmin imax : Nat) :
    ∀ c j, (∀ k, j ≤ k → k < j + c → slotOf W b tsmin imax k = []) →
      slotsFrom W b tsmin imax j c = [] := by
  intro c
  induction c with
  | zero => intro j h; rfl
  | succ c ih =>
    intro j h
    show slotOf W b tsmin imax j ++ slotsFrom W b tsmin imax (j + 1) c = []
    rw [h j (Nat.le_refl j) (by omega), ih (j + 1) (fun k hk1 hk2 => h k (by omega) (by omega)),
      List.append_nil]

theorem slotOf_of_bucket_nil (W : Nat) (b : BucketArr) (tsmin imax j : Nat)
    (h : b ((imax + 1 + j) % W) = []) : slotOf W b tsmin imax j = [] := by
  simp only [slotOf]
  rw [h]

theorem slotOf_mem_elim (W : Nat) (b : BucketArr) (tsmin imax j : Nat)
    (sp : StatsPair) (h : sp ∈ slotOf W b tsmin imax j) :
    ∃ t0 v0 tl, b ((imax + 1 + j) % W) = (t0, v0) :: tl ∧
      sp ∈ b ((imax + 1 + j) % W) ∧
      ((imax + 1 + j) % W = imax ∨ tsmin ≤ t0) := by
  revert h
  simp only [slotOf]
  match hb : b ((imax + 1 + j) % W) with
  | [] => intro h; exact absurd h (List.not_mem_nil sp)
  | (t0, v0) :: tl =>
    show sp ∈ (if (imax + 1 + j) % W = imax ∨ tsmin ≤ t0 then (t0, v0) :: tl
      else []) → _
    by_cases hc : (imax + 1 + j) % W = imax ∨ tsmin ≤ t0
    · rw [if_pos hc]
      intro h
      exact ⟨t0, v0, tl, rfl, h, hc⟩
    · rw [if_neg hc]
      intro h
      exact absurd h (List.not_mem_nil sp)

/-- Every sample in the kept slot at traversal step `j` of a well-formed
state has timestamp exactly `mx + 1 + j - W`: the traversal's slots carry
strictly increasing timestamps ending at `mx` in slot `W - 1`. -/
theorem slot_ts (W : Nat) (hW : 0 < W) (hW64 : W < u64size) (b : BucketArr)
    (hwf : BucketWF W b) (j : Nat) (hj : j < W) :
    ∀ sp ∈ slotOf W b (tsMin W (maxScan b W).1) (maxScan b W).2 j,
      sp.1 + W = (maxScan b W).1 + 1 + j := by
  intro sp hsp
  obtain ⟨t0, v0, tl, hb, hmem, hkeep⟩ :=
    slotOf_mem_elim W b (tsMin W (maxScan b W).1) (maxScan b W).2 j sp hsp
  have hne : size W b ≠ 0 := by
    intro h0
    have h1 := (sizeAux_zero_iff b W).mp h0 (((maxScan b W).2 + 1 + j) % W)
      (idx_lt W (maxScan b W).2 j hW)
    rw [h1] at hb
    exact List.noConfusion hb
  obtain ⟨him, ⟨vm, tlm, hbim⟩, hbound, hmxmod⟩ := maxScan_spec W hW b hwf hne
  have hhead := hwf (((maxScan b W).2 + 1 + j) % W) (t0, v0)
    (by rw [hb]; exact List.mem_cons_self _ _)
  have hsp_ts : sp.1 = t0 := hhead.2.2 sp hmem
  have ht0mod : t0 % W = ((maxScan b W).2 + 1 + j) % W := hhead.1
  have hmxu : (maxScan b W).1 < u64size :=
    (hwf (maxScan b W).2 ((maxScan b W).1, vm)
      (by rw [hbim]; exact List.mem_cons_self _ _)).2.1
  have ht0le : t0 ≤ (maxScan b W).1 :=
    hbound (((maxScan b W).2 + 1 + j) % W) (idx_lt W (maxScan b W).2 j hW)
      (t0, v0) (by rw [hb]; exact List.mem_cons_self _ _)
  by_cases hkim : ((maxScan b W).2 + 1 + j) % W = (maxScan b W).2
  · have hjW : j = W - 1 := by
      by_contra hne2
      exact idx_ne_imax W (maxScan b W).2 j him (by omega) hkim
    have ht0mx : t0 = (maxScan b W).1 := by
      rw [hkim] at hb
      have h2 := hb.symm.trans hbim
      injection h2 with h3 h4
      exact congrArg Prod.fst h3
    rw [hsp_ts, ht0mx, hjW]
    omega
  · have hkts : tsMin W (maxScan b W).1 ≤ t0 := hkeep.resolve_left hkim
    rcases Nat.lt_or_ge (maxScan b W).1 W with hwrap | hge
    · have := tsMin_gt_of_wrap W (maxScan b W).1 hW hwrap hW64
      omega
    · have htmin := tsMin_eq_sub W (maxScan b W).1 hge hmxu
      rw [htmin] at hkts
      have hmodim : ((maxScan b W).1 - W) % W = (maxScan b W).1 % W := by
        have h9 : ((maxScan b W).1 - W) + W = (maxScan b W).1 := by omega
        calc ((maxScan b W).1 - W) % W
            = (((maxScan b W).1 - W) + W) % W := (Nat.add_mod_right _ _).symm
          _ = (maxScan b W).1 % W := by rw [h9]
      have ht0ne1 : t0 ≠ (maxScan b W).1 - W := by
        intro he
        exact hkim (by rw [← ht0mod, he, hmodim, hmxmod])
      have ht0ne2 : t0 ≠ (maxScan b W).1 := by
        intro he
        exact hkim (by rw [← ht0mod, he]; exact hmxmod)
      have hcong : (t0 + W) % W = ((maxScan b W).1 + 1 + j) % W := by
        rw [Nat.add_mod_right, ht0mod]
        have h9 : (maxScan b W).2 % W = (maxScan b W).1 % W := by
          rw [Nat.mod_eq_of_lt him, hmxmod]
        calc ((maxScan b W).2 + 1 + j) % W
            = ((maxScan b W).2 + (1 + j)) % W := by
              rw [show (maxScan b W).2 + 1 + j = (maxScan b W).2 + (1 + j) by omega]
          _ = ((maxScan b W).1 + (1 + j)) % W :=
              mod_add_front (maxScan b W).2 (maxScan b W).1 (1 + j) W h9
          _ = ((maxScan b W).1 + 1 + j) % W := by
              rw [show (maxScan b W).1 + (1 + j) = (maxScan b W).1 + 1 + j by omega]
      have heq : t0 + W = (maxScan b W).1 + 1 + j :=
        window_cong_eq W (maxScan b W).1 (t0 + W) ((maxScan b W).1 + 1 + j) hW
          hcong (by omega) (by omega) (by omega) (by omega)
      rw [hsp_ts]
      exact heq

theorem hsame_of_wf (W : Nat) (b : BucketArr) (hwf : BucketWF W b) :
    ∀ i : Nat, ∀ sp ∈ b i, ∀ sq ∈ b i, sq.1 = sp.1 :=
  fun i sp hsp => (hwf i sp hsp).2.2

theorem statsView_mem_ts (W : Nat) (hW : 0 < W) (hW64 : W < u64size)
    (b : BucketArr) (hwf : BucketWF W b) (sp : StatsPair)
    (h : sp ∈ statsView W b) :
    ∃ j, j < W ∧ sp.1 + W = (maxScan b W).1 + 1 + j := by
  rw [statsView_eq_slots W hW b (hsame_of_wf W b hwf)] at h
  obtain ⟨k, hk1, hk2, hk3⟩ := mem_slotsFrom W b _ _ W 0 sp h
  exact ⟨k, by omega, slot_ts W hW hW64 b hwf k (by omega) sp hk3⟩

/-- C4: on every reachable state the view never yields a sample whose
timestamp is at most `t_max - W`, where `t_max` is the maximum timestamp
among yielded samples (stated pairwise over the yielded samples, in integer
arithmetic); consequently no stored sample whose timestamp equals
`t_max - W` exactly is ever yielded. -/
theorem view_freshness (W : Nat) (hW : 0 < W) (hW64 : W < u64size)
    (l : List StatsPair) (hl : ∀ p ∈ l, p.1 < u64size) :
    (∀ sp ∈ statsView W (addAll W emptyB l),
      ∀ sq ∈ statsView W (addAll W emptyB l),
        (sq.1 : Int) - W < sp.1) ∧
    (∀ sq ∈ statsView W (addAll W emptyB l), ∀ p : StatsPair,
      (p.1 : Int) = sq.1 - W → p ∉ statsView W (addAll W emptyB l)) := by
  have hwf := bucketWF_addAll W l hl emptyB (bucketWF_empty W)
  have hkey : ∀ sp ∈ statsView W (addAll W emptyB l),
      ∀ sq ∈ statsView W (addAll W emptyB l), sq.1 < sp.1 + W := by
    intro sp hsp sq hsq
    obtain ⟨j, hj, hts⟩ := statsView_mem_ts W hW hW64 _ hwf sp hsp
    obtain ⟨k, hk, hts2⟩ := statsView_mem_ts W hW hW64 _ hwf sq hsq
    omega
  constructor
  · intro sp hsp sq hsq
    have := hkey sp hsp sq hsq
    omega
  · intro sq hsq p hp hpin
    have h1 := hkey p hpin sq hsq
    omega

theorem slotsFrom_pairwise_le (W : Nat) (hW : 0 < W) (hW64 : W < u64size)
    (b : BucketArr) (hwf : BucketWF W b) :
    ∀ c j, j + c ≤ W →
      List.Pairwise (fun p q : StatsPair => p.1 ≤ q.1)
        (slotsFrom W b (tsMin W (maxScan b W).1) (maxScan b W).2 j c) := by
  intro c
  induction c with
  | zero => intro j hj; exact List.Pairwise.nil
  | succ c ih =>
    intro j hj
    show List.Pairwise _ (slotOf W b _ _ j ++ slotsFrom W b _ _ (j + 1) c)
    rw [List.pairwise_append]
    refine ⟨?_, ih (j + 1) (by omega), ?_⟩
    · apply List.pairwise_of_forall_mem_list
      intro x hx y hy
      have h1 := slot_ts W hW hW64 b hwf j (by omega) x hx
      have h2 := slot_ts W hW hW64 b hwf j (by omega) y hy
      omega
    · intro x hx y hy
      obtain ⟨k, hk1, hk2, hk3⟩ := mem_slotsFrom W b _ _ c (j + 1) y hy
      have h1 := slot_ts W hW hW64 b hwf j (by omega) x hx
      have h2 := slot_ts W hW hW64 b hwf k (by omega) y hk3
      omega

theorem bucketAdd_cases (bk : List StatsPair) (sp : StatsPair) :
    bucketAdd bk sp = bk ++ [sp] ∨ bucketAdd bk sp = [sp] := by
  match bk with
  | [] => exact Or.inl rfl
  | (t0, v0) :: tl =>
    by_cases h : sp.1 = t0
    · exact Or.inl (by simp [bucketAdd, h])
    · exact Or.inr (by simp [bucketAdd, h])

theorem bucketFold_suffix : ∀ (m bk : List StatsPair),
    List.IsSuffix (bucketFold bk m) (bk ++ m) := by
  intro m
  induction m with
  | nil =>
    intro bk
    rw [List.append_nil]
    exact List.suffix_refl bk
  | cons x m ih =>
    intro bk
    show List.IsSuffix (bucketFold (bucketAdd bk x) m) (bk ++ x :: m)
    rcases bucketAdd_cases bk x with h | h
    · have h2 := ih (bucketAdd bk x)
      rw [h] at h2
      rw [List.append_assoc, List.singleton_append] at h2
      rw [h]
      exact h2
    · have h2 := ih (bucketAdd bk x)
      rw [h, List.singleton_append] at h2
      rw [h]
      exact h2.trans (List.suffix_append bk (x :: m))

theorem addAll_bucket_filter (W : Nat) :
    ∀ (l : List StatsPair) (b0 : BucketArr) (i : Nat),
      addAll W b0 l i =
        bucketFold (b0 i) (l.filter (fun p => decide (p.1 % W = i))) := by
  intro l
  induction l with
  | nil => intro b0 i; rfl
  | cons x xs ih =>
    intro b0 i
    show addAll W (add W b0 x) xs i = _
    rw [ih (add W b0 x) i]
    by_cases hx : x.1 % W = i
    · have h1 : add W b0 x i = bucketAdd (b0 i) x := by
        rw [← hx]
        exact add_target W b0 x
      have h2 : (x :: xs).filter (fun p => decide (p.1 % W = i)) =
          x :: xs.filter (fun p => decide (p.1 % W = i)) :=
        List.filter_cons_of_pos (by simp [hx])
      rw [h1, h2]
      rfl
    · have h1 : add W b0 x i = b0 i := add_other W b0 x i (fun he => hx he.symm)
      have h2 : (x :: xs).filter (fun p => decide (p.1 % W = i)) =
          xs.filter (fun p => decide (p.1 % W = i)) :=
        List.filter_cons_of_neg (by simp [hx])
      rw [h1, h2]

theorem addAll_bucket_sublist (W : Nat) (l : List StatsPair) (i : Nat) :
    List.Sublist (addAll W emptyB l i) l := by
  rw [addAll_bucket_filter W l emptyB i]
  have h1 := bucketFold_suffix (l.filter (fun p => decide (p.1 % W = i))) []
  rw [List.nil_append] at h1
  exact h1.sublist.trans (List.filter_sublist l)

theorem slotOf_cases (W : Nat) (b : BucketArr) (tsmin imax j : Nat) :
    slotOf W b tsmin imax j = [] ∨
      slotOf W b tsmin imax j = b ((imax + 1 + j) % W) := by
  simp only [slotOf]
  match hb : b ((imax + 1 + j) % W) with
  | [] => exact Or.inl rfl
  | (t0, v0) :: tl =>
    by_cases hc : (imax + 1 + j) % W = imax ∨ tsmin ≤ t0
    · refine Or.inr ?_
      show (if (imax + 1 + j) % W = imax ∨ tsmin ≤ t0 then (t0, v0) :: tl
        else []) = (t0, v0) :: tl
      rw [if_pos hc]
    · refine Or.inl ?_
      show (if (imax + 1 + j) % W = imax ∨ tsmin ≤ t0 then (t0, v0) :: tl
        else []) = []
      rw [if_neg hc]

theorem filter_slotsFrom_cases (W : Nat) (hW : 0 < W) (hW64 : W < u64size)
    (b : BucketArr) (hwf : BucketWF W b) (t : Nat) :
    ∀ c j, j + c ≤ W →
      (slotsFrom W b (tsMin W (maxScan b W).1) (maxScan b W).2 j c).filter
          (fun p => decide (p.1 = t)) = [] ∨
      ∃ k, j ≤ k ∧ k < j + c ∧
        (slotsFrom W b (tsMin W (maxScan b W).1) (maxScan b W).2 j c).filter
            (fun p => decide (p.1 = t)) =
          slotOf W b (tsMin W (maxScan b W).1) (maxScan b W).2 k := by
  intro c
  induction c with
  | zero => intro j hj; exact Or.inl rfl
  | succ c ih =>
    intro j hj
    have hsplit : (slotsFrom W b (tsMin W (maxScan b W).1) (maxScan b W).2 j
        (c + 1)).filter (fun p => decide (p.1 = t)) =
        (slotOf W b (tsMin W (maxScan b W).1) (maxScan b W).2 j).filter
          (fun p => decide (p.1 = t)) ++
        (slotsFrom W b (tsMin W (maxScan b W).1) (maxScan b W).2 (j + 1)
            c).filter (fun p => decide (p.1 = t)) := by
      show (slotOf W b _ _ j ++ slotsFrom W b _ _ (j + 1) c).filter _ = _
      rw [List.filter_append]
    by_cases hfj : (slotOf W b (tsMin W (maxScan b W).1) (maxScan b W).2
        j).filter (fun p => decide (p.1 = t)) = []
    · rw [hsplit, hfj, List.nil_append]
      rcases ih (j + 1) (by omega) with h | ⟨k, hk1, hk2, hk3⟩
      · exact Or.inl h
      · exact Or.inr ⟨k, by omega, by omega, hk3⟩
    · obtain ⟨x, hx, hxt⟩ : ∃ x ∈ slotOf W b (tsMin W (maxScan b W).1)
          (maxScan b W).2 j, decide (x.1 = t) = true := by
        by_contra hc
        push_neg at hc
        exact hfj (List.filter_eq_nil_iff.mpr (by
          intro a ha
          have := hc a ha
          simp at this ⊢
          exact this))
      have hxts : x.1 = t := of_decide_eq_true hxt
      have hfid : (slotOf W b (tsMin W (maxScan b W).1) (maxScan b W).2
          j).filter (fun p => decide (p.1 = t)) =
          slotOf W b (tsMin W (maxScan b W).1) (maxScan b W).2 j := by
        rw [List.filter_eq_self]
        intro y hy
        have h1 := slot_ts W hW hW64 b hwf j (by omega) y hy
        have h2 := slot_ts W hW hW64 b hwf j (by omega) x hx
        exact decide_eq_true (by omega)
      have hrest : (slotsFrom W b (tsMin W (maxScan b W).1) (maxScan b W).2
          (j + 1) c).filter (fun p => decide (p.1 = t)) = [] := by
        rw [List.filter_eq_nil_iff]
        intro y hy
        obtain ⟨k, hk1, hk2, hk3⟩ := mem_slotsFrom W b _ _ c (j + 1) y hy
        have h1 := slot_ts W hW hW64 b hwf k (by omega) y hk3
        have h2 := slot_ts W hW hW64 b hwf j (by omega) x hx
        simp only [decide_eq_true_eq]
        omega
      rw [hsplit, hfid, hrest, List.append_nil]
      exact Or.inr ⟨j, Nat.le_refl j, by omega, rfl⟩

/-- C5: on every reachable state the view yields the live samples in
non-decreasing timestamp order, and the samples sharing one timestamp are
yielded as a sublist of the add sequence, i.e. in their insertion order. -/
theorem view_sorted (W : Nat) (hW : 0 < W) (hW64 : W < u64size)
    (l : List StatsPair) (hl : ∀ p ∈ l, p.1 < u64size) :
    List.Pairwise (fun p q : StatsPair => p.1 ≤ q.1)
      (statsView W (addAll W emptyB l)) ∧
    ∀ t : Nat, List.Sublist
      ((statsView W (addAll W emptyB l)).filter (fun p => decide (p.1 = t)))
      l := by
  have hwf := bucketWF_addAll W l hl emptyB (bucketWF_empty W)
  have hchar := statsView_eq_slots W hW (addAll W emptyB l)
    (hsame_of_wf W _ hwf)
  constructor
  · rw [hchar]
    exact slotsFrom_pairwise_le W hW hW64 _ hwf W 0 (by omega)
  · intro t
    rw [hchar]
    rcases filter_slotsFrom_cases W hW hW64 _ hwf t W 0 (by omega) with h |
      ⟨k, hk1, hk2, hk3⟩
    · rw [h]
      exact List.nil_sublist l
    · rw [hk3]
      rcases slotOf_cases W (addAll W emptyB l) (tsMin W
          (maxScan (addAll W emptyB l) W).1) (maxScan (addAll W emptyB l) W).2
          k with h4 | h4
      · rw [h4]
        exact List.nil_sublist l
      · rw [h4]
        exact addAll_bucket_sublist W l _

/-! ## Emptiness and `get_p` failure -/

theorem view_nil_iff_size (W : Nat) (hW : 0 < W) (b : BucketArr)
    (hwf : BucketWF W b) : statsView W b = [] ↔ size W b = 0 := by
  rw [statsView_eq_slots W hW b (hsame_of_wf W b hwf)]
  constructor
  · intro hv
    by_contra hsz
    obtain ⟨him, ⟨vm, tlm, hbim⟩, _, _⟩ := maxScan_spec W hW b hwf hsz
    have hmem : ((maxScan b W).1, vm) ∈ slotOf W b (tsMin W (maxScan b W).1)
        (maxScan b W).2 (W - 1) := by
      rw [slotOf_last W b _ _ hW him, hbim]
      exact List.mem_cons_self _ _
    have hmem2 := mem_slotsFrom_of W b (tsMin W (maxScan b W).1)
      (maxScan b W).2 W 0 (W - 1) ((maxScan b W).1, vm) (by omega) (by omega)
      hmem
    rw [hv] at hmem2
    exact List.not_mem_nil _ hmem2
  · intro hsz
    apply slotsFrom_all_nil
    intro k hk1 hk2
    apply slotOf_of_bucket_nil
    exact (sizeAux_zero_iff b W).mp hsz _ (idx_lt W (maxScan b W).2 k hW)

theorem get_p_ne_empty (W : Nat) (b : BucketArr) (q : Nat)
    (hsz : size W b ≠ 0) : get_p W b q ≠ PRes.emptyError := by
  intro hcon
  simp only [get_p] at hcon
  rw [if_neg hsz] at hcon
  split at hcon
  · exact PRes.noConfusion hcon
  · exact PRes.noConfusion hcon

/-- C7: on every reachable state, `p(q)` fails with the EMPTY error exactly
when the container holds zero live samples (equivalently: the view is empty,
equivalently `size() = 0`, since the newest bucket is always live); the
operations are otherwise total, and `get_p` is a pure function of the state,
which it leaves unchanged. -/
theorem get_p_empty_iff (W : Nat) (hW : 0 < W) (l : List StatsPair)
    (hl : ∀ p ∈ l, p.1 < u64size) (q : Nat) :
    (get_p W (addAll W emptyB l) q = PRes.emptyError ↔
      statsView W (addAll W emptyB l) = []) ∧
    (statsView W (addAll W emptyB l) = [] ↔ size W (addAll W emptyB l) = 0) := by
  have hwf := bucketWF_addAll W l hl emptyB (bucketWF_empty W)
  have hiff := view_nil_iff_size W hW (addAll W emptyB l) hwf
  refine ⟨?_, hiff⟩
  constructor
  · intro h
    by_cases hsz : size W (addAll W emptyB l) = 0
    · exact hiff.mpr hsz
    · exact absurd h (get_p_ne_empty W _ q hsz)
  · intro hv
    have hsz := hiff.mp hv
    show get_p W (addAll W emptyB l) q = PRes.emptyError
    simp only [get_p]
    rw [if_pos hsz]

/-! ## The view of a state with two singleton buckets -/

theorem view_two_singleton_buckets (W : Nat) (hW2 : 2 ≤ W)
    (told tnew : Nat) (vold vnew : Int)
    (hlt : told < tnew) (hwin : tnew < told + W) (hge : W ≤ tnew)
    (hu : tnew < u64size) (b : BucketArr) (hwf : BucketWF W b)
    (hbold : b (told % W) = [(told, vold)])
    (hbnew : b (tnew % W) = [(tnew, vnew)])
    (hother : ∀ i, i ≠ told % W → i ≠ tnew % W → b i = []) :
    statsView W b = [(told, vold), (tnew, vnew)] := by
  have hW0 : 0 < W := by omega
  have him : tnew % W < W := Nat.mod_lt _ hW0
  obtain ⟨jold, hjold⟩ : ∃ jold, told + W = tnew + 1 + jold := ⟨told + W - tnew - 1, by omega⟩
  have hjold_lt : jold < W - 1 := by omega
  have hmodfront : ∀ k, (tnew % W + 1 + k) % W = (tnew + 1 + k) % W := by
    intro k
    have h := mod_add_front (tnew % W) tnew (1 + k) W
      (Nat.mod_mod_of_dvd _ (Nat.dvd_refl W))
    rw [show tnew % W + 1 + k = tnew % W + (1 + k) by omega,
      show tnew + 1 + k = tnew + (1 + k) by omega]
    exact h
  have htoldmod : told % W = (tnew + 1 + jold) % W := by
    rw [← hjold, Nat.add_mod_right]
  have hkuniq : ∀ k, k < W → (tnew + 1 + k) % W = told % W → k = jold := by
    intro k hk he
    have h1 : (tnew + 1 + k) % W = (tnew + 1 + jold) % W := by
      rw [he, htoldmod]
    have h2 := window_cong_eq W tnew (tnew + 1 + k) (tnew + 1 + jold) hW0 h1
      (by omega) (by omega) (by omega) (by omega)
    omega
  -- identify maxScan
  have hne : told % W ≠ tnew % W := by
    intro he
    rw [he, hbnew] at hbold
    injection hbold with h1 h2
    have h3 : tnew = told := congrArg Prod.fst h1
    omega
  have hsz : size W b ≠ 0 := by
    intro h0
    have h1 := (sizeAux_zero_iff b W).mp h0 (tnew % W) him
    rw [hbnew] at h1
    exact List.noConfusion h1
  obtain ⟨himlt, ⟨vm, tlm, hbim⟩, hbound, hmxmod⟩ := maxScan_spec W hW0 b hwf hsz
  have himid : (maxScan b W).2 = tnew % W ∧ (maxScan b W).1 = tnew := by
    by_cases ha : (maxScan b W).2 = told % W
    · exfalso
      rw [ha, hbold] at hbim
      injection hbim with h1 h2
      have h3 : told = (maxScan b W).1 := congrArg Prod.fst h1
      have h4 := hbound (tnew % W) him (tnew, vnew)
        (by rw [hbnew]; exact List.mem_cons_self _ _)
      omega
    · by_cases hb2 : (maxScan b W).2 = tnew % W
      · rw [hb2, hbnew] at hbim
        injection hbim with h1 h2
        have h3 : tnew = (maxScan b W).1 := congrArg Prod.fst h1
        exact ⟨hb2, h3.symm⟩
      · exfalso
        rw [hother _ ha hb2] at hbim
        exact List.noConfusion hbim
  have htmin : tsMin W (maxScan b W).1 = tnew - W := by
    rw [himid.2]
    exact tsMin_eq_sub W tnew hge hu
  -- slot computations
  have hidx : ∀ k, ((maxScan b W).2 + 1 + k) % W = (tnew + 1 + k) % W := by
    intro k
    rw [himid.1]
    exact hmodfront k
  have hslot_old : slotOf W b (tsMin W (maxScan b W).1) (maxScan b W).2 jold =
      [(told, vold)] := by
    have h1 : ((maxScan b W).2 + 1 + jold) % W = told % W := by
      rw [hidx jold, ← htoldmod]
    simp only [slotOf]
    rw [h1, hbold]
    show (if told % W = (maxScan b W).2 ∨ tsMin W (maxScan b W).1 ≤ told
      then [(told, vold)] else []) = [(told, vold)]
    rw [if_pos (Or.inr (by rw [htmin]; omega))]
  have hslot_mid : ∀ k, k < W - 1 → k ≠ jold →
      slotOf W b (tsMin W (maxScan b W).1) (maxScan b W).2 k = [] := by
    intro k hk hkne
    apply slotOf_of_bucket_nil
    apply hother
    · intro he
      rw [hidx k] at he
      exact hkne (hkuniq k (by omega) he)
    · intro he
      have he2 : ((maxScan b W).2 + 1 + k) % W = (maxScan b W).2 := by
        rw [he]
        exact himid.1.symm
      exact idx_ne_imax W (maxScan b W).2 k himlt (by omega) he2
  have hslot_last : slotOf W b (tsMin W (maxScan b W).1) (maxScan b W).2
      (W - 1) = [(tnew, vnew)] := by
    rw [slotOf_last W b _ _ hW0 himlt, himid.1, hbnew]
  -- assemble
  rw [statsView_eq_slots W hW0 b (hsame_of_wf W b hwf)]
  have hsplit1 := slotsFrom_split W b (tsMin W (maxScan b W).1) (maxScan b W).2
    jold (W - jold) 0
  rw [show jold + (W - jold) = W by omega, Nat.zero_add] at hsplit1
  have hsplit2 := slotsFrom_split W b (tsMin W (maxScan b W).1) (maxScan b W).2
    1 (W - jold - 1) jold
  rw [show 1 + (W - jold - 1) = W - jold by omega] at hsplit2
  have hsplit3 := slotsFrom_split W b (tsMin W (maxScan b W).1) (maxScan b W).2
    (W - jold - 2) 1 (jold + 1)
  rw [show W - jold - 2 + 1 = W - jold - 1 by omega,
    show jold + 1 + (W - jold - 2) = W - 1 by omega] at hsplit3
  have hnil1 : slotsFrom W b (tsMin W (maxScan b W).1) (maxScan b W).2 0 jold
      = [] := by
    apply slotsFrom_all_nil
    intro k hk1 hk2
    exact hslot_mid k (by omega) (by omega)
  have hnil2 : slotsFrom W b (tsMin W (maxScan b W).1) (maxScan b W).2
      (jold + 1) (W - jold - 2) = [] := by
    apply slotsFrom_all_nil
    intro k hk1 hk2
    exact hslot_mid k (by omega) (by omega)
  have hone : slotsFrom W b (tsMin W (maxScan b W).1) (maxScan b W).2 jold 1 =
      [(told, vold)] := by
    show slotOf W b (tsMin W (maxScan b W).1) (maxScan b W).2 jold ++ [] = _
    rw [List.append_nil, hslot_old]
  have hlast : slotsFrom W b (tsMin W (maxScan b W).1) (maxScan b W).2
      (W - 1) 1 = [(tnew, vnew)] := by
    show slotOf W b (tsMin W (maxScan b W).1) (maxScan b W).2 (W - 1) ++ [] = _
    rw [List.append_nil, hslot_last]
  rw [hsplit1, hsplit2, hsplit3, hnil1, hnil2, hone, hlast]
  rfl

/-- C3 (amended: starting timestamp `t ≥ 1`, timestamps in u64 range): after
`add(t, a)` and `add(t + W - 1, b)` with no further inserts, `a` remains live
and the view yields both `a` and `b`; after a further `add(t + W, c)`, `a` is
no longer yielded.  At `t = 0` the claim fails because `t_max - W` wraps
around in u64 arithmetic (see the counterexample). -/
theorem stale_tail (W t : Nat) (a vb vc : Int) (hW : 2 ≤ W) (ht : 1 ≤ t)
    (hub : t + W < u64size) :
    statsView W (addAll W emptyB [(t, a), (t + W - 1, vb)]) =
      [(t, a), (t + W - 1, vb)] ∧
    statsView W (addAll W emptyB [(t, a), (t + W - 1, vb), (t + W, vc)]) =
      [(t + W - 1, vb), (t + W, vc)] ∧
    (t, a) ∉ statsView W (addAll W emptyB [(t, a), (t + W - 1, vb), (t + W, vc)]) := by
  have hia : add W emptyB (t, a) (t % W) = [(t, a)] := add_target W emptyB (t, a)
  have hio : ∀ i, i ≠ t % W → add W emptyB (t, a) i = [] := fun i hi =>
    add_other W emptyB (t, a) i hi
  have hmib : (t + W - 1) % W = (t - 1) % W := by
    rw [show t + W - 1 = (t - 1) + W by omega, Nat.add_mod_right]
  have hne_ab : t % W ≠ (t + W - 1) % W := by
    rw [hmib]
    intro he
    have h1 : ((t - 1) + 1) % W = (t - 1) % W := by
      rw [show (t - 1) + 1 = t by omega]
      exact he
    have := mod_cancel (t - 1) 1 W (by omega) (by omega) h1
    omega
  have hb1a : addAll W emptyB [(t, a), (t + W - 1, vb)] (t % W) = [(t, a)] := by
    show add W (add W emptyB (t, a)) (t + W - 1, vb) (t % W) = [(t, a)]
    rw [add_other W _ (t + W - 1, vb) (t % W) hne_ab]
    exact hia
  have hb1b : addAll W emptyB [(t, a), (t + W - 1, vb)] ((t + W - 1) % W) =
      [(t + W - 1, vb)] := by
    show add W (add W emptyB (t, a)) (t + W - 1, vb) ((t + W - 1) % W) = _
    have h1 := add_target W (add W emptyB (t, a)) (t + W - 1, vb)
    rw [h1, hio ((t + W - 1) % W) (fun he => hne_ab he.symm)]
    rfl
  have hb1o : ∀ i, i ≠ t % W → i ≠ (t + W - 1) % W →
      addAll W emptyB [(t, a), (t + W - 1, vb)] i = [] := by
    intro i h1 h2
    show add W (add W emptyB (t, a)) (t + W - 1, vb) i = []
    rw [add_other W _ _ i h2]
    exact hio i h1
  have hl1 : ∀ p ∈ [((t : Nat), a), (t + W - 1, vb)], p.1 < u64size := by
    intro p hp
    rcases List.mem_cons.mp hp with rfl | hp2
    · show t < u64size
      omega
    · rcases List.mem_cons.mp hp2 with rfl | hp3
      · show t + W - 1 < u64size
        omega
      · exact absurd hp3 (List.not_mem_nil p)
  have hwf1 := bucketWF_addAll W [(t, a), (t + W - 1, vb)] hl1 emptyB
    (bucketWF_empty W)
  have hview1 := view_two_singleton_buckets W hW t (t + W - 1) a vb
    (by omega) (by omega) (by omega) (by omega)
    (addAll W emptyB [(t, a), (t + W - 1, vb)]) hwf1 hb1a hb1b hb1o
  have hmic : (t + W) % W = t % W := Nat.add_mod_right t W
  have hb2c : addAll W emptyB [(t, a), (t + W - 1, vb), (t + W, vc)]
      ((t + W) % W) = [(t + W, vc)] := by
    show add W (addAll W emptyB [(t, a), (t + W - 1, vb)]) (t + W, vc)
      ((t + W) % W) = _
    have h1 := add_target W (addAll W emptyB [(t, a), (t + W - 1, vb)])
      (t + W, vc)
    rw [h1, hmic, hb1a]
    show (if t + W = t then [(t, a)] ++ [(t + W, vc)] else [(t + W, vc)]) =
      [(t + W, vc)]
    rw [if_neg (by omega)]
  have hb2b : addAll W emptyB [(t, a), (t + W - 1, vb), (t + W, vc)]
      ((t + W - 1) % W) = [(t + W - 1, vb)] := by
    show add W (addAll W emptyB [(t, a), (t + W - 1, vb)]) (t + W, vc)
      ((t + W - 1) % W) = _
    rw [add_other W _ _ _ (by rw [hmic]; exact fun he => hne_ab he.symm)]
    exact hb1b
  have hb2o : ∀ i, i ≠ (t + W - 1) % W → i ≠ (t + W) % W →
      addAll W emptyB [(t, a), (t + W - 1, vb), (t + W, vc)] i = [] := by
    intro i h1 h2
    show add W (addAll W emptyB [(t, a), (t + W - 1, vb)]) (t + W, vc) i = []
    rw [add_other W _ _ i h2]
    refine hb1o i ?_ h1
    rw [hmic] at h2
    exact h2
  have hl2 : ∀ p ∈ [((t : Nat), a), (t + W - 1, vb), (t + W, vc)],
      p.1 < u64size := by
    intro p hp
    rcases List.mem_cons.mp hp with rfl | hp2
    · show t < u64size
      omega
    · rcases List.mem_cons.mp hp2 with rfl | hp3
      · show t + W - 1 < u64size
        omega
      · rcases List.mem_cons.mp hp3 with rfl | hp4
        · show t + W < u64size
          omega
        · exact absurd hp4 (List.not_mem_nil p)
  have hwf2 := bucketWF_addAll W [(t, a), (t + W - 1, vb), (t + W, vc)] hl2
    emptyB (bucketWF_empty W)
  have hview2 := view_two_singleton_buckets W hW (t + W - 1) (t + W) vb vc
    (by omega) (by omega) (by omega) (by omega)
    (addAll W emptyB [(t, a), (t + W - 1, vb), (t + W, vc)]) hwf2 hb2b hb2c
    hb2o
  refine ⟨hview1, hview2, ?_⟩
  rw [hview2]
  intro hmem
  rcases List.mem_cons.mp hmem with h | h
  · have h2 := congrArg Prod.fst h
    simp only [] at h2
    omega
  · rcases List.mem_cons.mp h with h2 | h2
    · have h3 := congrArg Prod.fst h2
      simp only [] at h3
      omega
    · exact List.not_mem_nil _ h2

/-- Witness for the amended C3 at a concrete input. -/
theorem stale_tail_witness :
    (2 ≤ 3 ∧ 1 ≤ 5 ∧ 5 + 3 < u64size) ∧
    (statsView 3 (addAll 3 emptyB [(5, 1), (5 + 3 - 1, 2)]) =
        [(5, 1), (5 + 3 - 1, 2)] ∧
      statsView 3 (addAll 3 emptyB [(5, 1), (5 + 3 - 1, 2), (5 + 3, 3)]) =
        [(5 + 3 - 1, 2), (5 + 3, 3)] ∧
      (5, 1) ∉ statsView 3 (addAll 3 emptyB [(5, 1), (5 + 3 - 1, 2), (5 + 3, 3)])) :=
  ⟨⟨by decide, by decide, by decide⟩,
    stale_tail 3 5 1 2 3 (by decide) (by decide) (by decide)⟩

/-! ## `size` as the number of surviving adds (C8) -/

theorem keepTerm_nil_adds (W : Nat) (bk : List StatsPair) (i : Nat) :
    keepTerm W [] bk i = bk.length := by
  match bk with
  | [] => rfl
  | (t0, v0) :: tl =>
    show (if ∀ y ∈ ([] : List StatsPair), y.1 % W = i → y.1 = t0 then
      ((t0, v0) :: tl).length else 0) = ((t0, v0) :: tl).length
    rw [if_pos (fun y hy => absurd hy (List.not_mem_nil y))]

theorem keepSum_nil_adds (W : Nat) (b : BucketArr) :
    ∀ k, keepSum W [] b k = sizeAux b k := by
  intro k
  induction k with
  | zero => rfl
  | succ k ih =>
    show keepSum W [] b k + keepTerm W [] (b k) k = sizeAux b k + (b k).length
    rw [ih, keepTerm_nil_adds]

theorem keepSum_emptyB (W : Nat) (l : List StatsPair) :
    ∀ k, keepSum W l emptyB k = 0 := by
  intro k
  induction k with
  | zero => rfl
  | succ k ih =>
    show keepSum W l emptyB k + keepTerm W l (emptyB k) k = 0
    rw [ih]
    rfl

theorem keepTerm_bucketAdd (W : Nat) (l2 : List StatsPair) (xt : Nat) (xv : Int)
    (bk : List StatsPair) :
    keepTerm W l2 (bucketAdd bk (xt, xv)) (xt % W) =
      (if ∀ y ∈ l2, y.1 % W = xt % W → y.1 = xt then 1 else 0) +
        keepTerm W ((xt, xv) :: l2) bk (xt % W) := by
  match bk with
  | [] =>
    show (if ∀ y ∈ l2, y.1 % W = xt % W → y.1 = xt then 1 else 0) =
      (if ∀ y ∈ l2, y.1 % W = xt % W → y.1 = xt then 1 else 0) + 0
    omega
  | (t0, v0) :: tl =>
    by_cases hts : xt = t0
    · subst hts
      have hb : bucketAdd ((xt, v0) :: tl) (xt, xv) =
          (xt, v0) :: (tl ++ [(xt, xv)]) := by
        show (if xt = xt then (xt, v0) :: tl ++ [(xt, xv)] else [(xt, xv)]) = _
        rw [if_pos rfl]
        rfl
      rw [hb]
      show (if ∀ y ∈ l2, y.1 % W = xt % W → y.1 = xt then
          ((xt, v0) :: (tl ++ [(xt, xv)])).length else 0) =
        (if ∀ y ∈ l2, y.1 % W = xt % W → y.1 = xt then 1 else 0) +
          (if ∀ y ∈ (xt, xv) :: l2, y.1 % W = xt % W → y.1 = xt then
            ((xt, v0) :: tl).length else 0)
      have hiff : (∀ y ∈ (xt, xv) :: l2, y.1 % W = xt % W → y.1 = xt) ↔
          (∀ y ∈ l2, y.1 % W = xt % W → y.1 = xt) := by
        constructor
        · intro h y hy hmod
          exact h y (List.mem_cons_of_mem _ hy) hmod
        · intro h y hy hmod
          rcases List.mem_cons.mp hy with rfl | hy2
          · rfl
          · exact h y hy2 hmod
      by_cases h : ∀ y ∈ l2, y.1 % W = xt % W → y.1 = xt
      · rw [if_pos h, if_pos h, if_pos (hiff.mpr h)]
        simp only [List.length_cons, List.length_append, List.length_nil]
        omega
      · rw [if_neg h, if_neg h, if_neg (fun hc => h (hiff.mp hc))]
    · have hb : bucketAdd ((t0, v0) :: tl) (xt, xv) = [(xt, xv)] := by
        show (if xt = t0 then (t0, v0) :: tl ++ [(xt, xv)] else [(xt, xv)]) = _
        rw [if_neg hts]
      rw [hb]
      show (if ∀ y ∈ l2, y.1 % W = xt % W → y.1 = xt then 1 else 0) =
        (if ∀ y ∈ l2, y.1 % W = xt % W → y.1 = xt then 1 else 0) +
          (if ∀ y ∈ (xt, xv) :: l2, y.1 % W = xt % W → y.1 = t0 then
            ((t0, v0) :: tl).length else 0)
      have hfalse : ¬ (∀ y ∈ (xt, xv) :: l2, y.1 % W = xt % W → y.1 = t0) := by
        intro h
        exact hts (h (xt, xv) (List.mem_cons_self _ _) rfl)
      rw [if_neg hfalse]
      omega

theorem keepTerm_other_bucket (W : Nat) (l2 : List StatsPair) (xt : Nat)
    (xv : Int) (bk : List StatsPair) (k : Nat) (hk : k ≠ xt % W) :
    keepTerm W ((xt, xv) :: l2) bk k = keepTerm W l2 bk k := by
  match bk with
  | [] => rfl
  | (t0, v0) :: tl =>
    show (if ∀ y ∈ (xt, xv) :: l2, y.1 % W = k → y.1 = t0 then
        ((t0, v0) :: tl).length else 0) =
      (if ∀ y ∈ l2, y.1 % W = k → y.1 = t0 then ((t0, v0) :: tl).length else 0)
    have hiff : (∀ y ∈ (xt, xv) :: l2, y.1 % W = k → y.1 = t0) ↔
        (∀ y ∈ l2, y.1 % W = k → y.1 = t0) := by
      constructor
      · intro h y hy hmod
        exact h y (List.mem_cons_of_mem _ hy) hmod
      · intro h y hy hmod
        rcases List.mem_cons.mp hy with rfl | hy2
        · exact absurd hmod (fun he => hk he.symm)
        · exact h y hy2 hmod
    by_cases h : ∀ y ∈ l2, y.1 % W = k → y.1 = t0
    · rw [if_pos h, if_pos (hiff.mpr h)]
    · rw [if_neg h, if_neg (fun hc => h (hiff.mp hc))]

theorem keepSum_add_step (W : Nat) (xt : Nat) (xv : Int) (l2 : List StatsPair)
    (b : BucketArr) : ∀ k,
    keepSum W l2 (add W b (xt, xv)) k =
      (if xt % W < k then
        (if ∀ y ∈ l2, y.1 % W = xt % W → y.1 = xt then 1 else 0) else 0) +
        keepSum W ((xt, xv) :: l2) b k := by
  intro k
  induction k with
  | zero => rfl
  | succ k ih =>
    show keepSum W l2 (add W b (xt, xv)) k +
        keepTerm W l2 (add W b (xt, xv) k) k =
      (if xt % W < k + 1 then
        (if ∀ y ∈ l2, y.1 % W = xt % W → y.1 = xt then 1 else 0) else 0) +
        (keepSum W ((xt, xv) :: l2) b k + keepTerm W ((xt, xv) :: l2) (b k) k)
    rw [ih]
    by_cases hk : k = xt % W
    · rw [if_pos (show xt % W < k + 1 by omega),
        if_neg (show ¬ (xt % W < k) by omega)]
      have h1 : add W b (xt, xv) k = bucketAdd (b k) (xt, xv) := by
        rw [hk]
        exact add_target W b (xt, xv)
      have h2 : keepTerm W l2 (bucketAdd (b k) (xt, xv)) k =
          (if ∀ y ∈ l2, y.1 % W = xt % W → y.1 = xt then 1 else 0) +
            keepTerm W ((xt, xv) :: l2) (b k) k := by
        rw [hk]
        exact keepTerm_bucketAdd W l2 xt xv (b (xt % W))
      rw [h1, h2]
      omega
    · rw [add_other W b (xt, xv) k hk,
        keepTerm_other_bucket W l2 xt xv (b k) k hk]
      by_cases hlt : xt % W < k
      · rw [if_pos hlt, if_pos (show xt % W < k + 1 by omega)]
        omega
      · rw [if_neg hlt, if_neg (show ¬ (xt % W < k + 1) by omega)]
        omega

theorem sizeAux_addAll (W : Nat) (hW : 0 < W) :
    ∀ (l : List StatsPair) (b : BucketArr),
      sizeAux (addAll W b l) W = survivorCount W l + keepSum W l b W := by
  intro l
  induction l with
  | nil =>
    intro b
    show sizeAux b W = survivorCount W [] + keepSum W [] b W
    rw [keepSum_nil_adds W b W]
    show sizeAux b W = 0 + sizeAux b W
    omega
  | cons x xs ih =>
    intro b
    obtain ⟨xt, xv⟩ := x
    show sizeAux (addAll W (add W b (xt, xv)) xs) W = _
    rw [ih (add W b (xt, xv))]
    have h1 := keepSum_add_step W xt xv xs b W
    rw [if_pos (Nat.mod_lt xt hW)] at h1
    rw [h1]
    show survivorCount W xs +
        ((if ∀ y ∈ xs, y.1 % W = xt % W → y.1 = xt then 1 else 0) +
          keepSum W ((xt, xv) :: xs) b W) =
      ((if ∀ y ∈ xs, y.1 % W = xt % W → y.1 = xt then 1 else 0) +
          survivorCount W xs) +
        keepSum W ((xt, xv) :: xs) b W
    omega

theorem sizeAux_eq_sum (b : BucketArr) :
    ∀ k, sizeAux b k = ((List.range k).map (fun i => (b i).length)).sum := by
  intro k
  induction k with
  | zero => rfl
  | succ k ih =>
    show sizeAux b k + (b k).length = _
    rw [ih, List.range_succ, List.map_append, List.sum_append]
    rfl

/-- C8: after any sequence of `add` calls and no `clear`, `size()` is the sum
of all bucket lengths, and equals the number of adds that were not evicted by
a later add to the same bucket carrying a different timestamp; this count
includes samples the iteration would skip as stale. -/
theorem size_eq_survivors (W : Nat) (hW : 0 < W) (l : List StatsPair) :
    size W (addAll W emptyB l) =
      ((List.range W).map (fun i => (addAll W emptyB l i).length)).sum ∧
    size W (addAll W emptyB l) = survivorCount W l := by
  constructor
  · exact sizeAux_eq_sum (addAll W emptyB l) W
  · show sizeAux (addAll W emptyB l) W = _
    rw [sizeAux_addAll W hW l emptyB, keepSum_emptyB W l W]
    omega

/-- Witness for C8 at a concrete input: five adds, two of which are evicted
(bucket reuse at differing timestamps). -/
theorem size_eq_survivors_witness :
    0 < 2 ∧
    (size 2 (addAll 2 emptyB [(10, 1), (10, 2), (11, 3), (12, 4), (12, 5)]) =
        ((List.range 2).map
          (fun i => (addAll 2 emptyB
            [(10, 1), (10, 2), (11, 3), (12, 4), (12, 5)] i).length)).sum ∧
      size 2 (addAll 2 emptyB [(10, 1), (10, 2), (11, 3), (12, 4), (12, 5)]) =
        survivorCount 2 [(10, 1), (10, 2), (11, 3), (12, 4), (12, 5)]) :=
  ⟨by decide, size_eq_survivors 2 (by decide)
    [(10, 1), (10, 2), (11, 3), (12, 4), (12, 5)]⟩

/-- Witness for C4 at a concrete input. -/
theorem view_freshness_witness :
    (0 < 2 ∧ 2 < u64size ∧ ∀ p ∈ [((5 : Nat), (1 : Int)), (6, 2)],
      p.1 < u64size) ∧
    ((∀ sp ∈ statsView 2 (addAll 2 emptyB [(5, 1), (6, 2)]),
        ∀ sq ∈ statsView 2 (addAll 2 emptyB [(5, 1), (6, 2)]),
          (sq.1 : Int) - 2 < sp.1) ∧
      (∀ sq ∈ statsView 2 (addAll 2 emptyB [(5, 1), (6, 2)]), ∀ p : StatsPair,
        (p.1 : Int) = sq.1 - 2 →
          p ∉ statsView 2 (addAll 2 emptyB [(5, 1), (6, 2)]))) :=
  ⟨⟨by decide, by decide, by decide⟩,
    view_freshness 2 (by decide) (by decide) [(5, 1), (6, 2)] (by decide)⟩

/-- Witness for C5 at a concrete input. -/
theorem view_sorted_witness :
    (0 < 2 ∧ 2 < u64size ∧ ∀ p ∈ [((5 : Nat), (1 : Int)), (6, 2)],
      p.1 < u64size) ∧
    (List.Pairwise (fun p q : StatsPair => p.1 ≤ q.1)
        (statsView 2 (addAll 2 emptyB [(5, 1), (6, 2)])) ∧
      ∀ t : Nat, List.Sublist
        ((statsView 2 (addAll 2 emptyB [(5, 1), (6, 2)])).filter
          (fun p => decide (p.1 = t))) [(5, 1), (6, 2)]) :=
  ⟨⟨by decide, by decide, by decide⟩,
    view_sorted 2 (by decide) (by decide) [(5, 1), (6, 2)] (by decide)⟩

/-- Witness for C7 at a concrete input. -/
theorem get_p_empty_iff_witness :
    (0 < 2 ∧ ∀ p ∈ [((5 : Nat), (1 : Int))], p.1 < u64size) ∧
    ((get_p 2 (addAll 2 emptyB [(5, 1)]) 50 = PRes.emptyError ↔
        statsView 2 (addAll 2 emptyB [(5, 1)]) = []) ∧
      (statsView 2 (addAll 2 emptyB [(5, 1)]) = [] ↔
        size 2 (addAll 2 emptyB [(5, 1)]) = 0)) :=
  ⟨⟨by decide, by decide⟩,
    get_p_empty_iff 2 (by decide) [(5, 1)] (by decide) 50⟩
